import Mathlib

/-!
Verification of the corpus-based Kannada text-normalization subsystem of the
`asr-finetuning` repository: `corpus_analyzer.py`, `corpus_normalizer.py` and
`extract_from_predictions.py` are shallowly embedded below.

Modelling conventions:
* a Python `str` is a sequence of Unicode code points, embedded as `List Char`
  (named `Str`); Python slicing `w[:i]` / `w[i:]` becomes `take` / `drop`;
* Python `dict` / `Counter` tables loaded from JSON are embedded as association
  lists (`List (key × value)`); `d.get(k, 0)` becomes `aget`, `k in d` becomes
  `(alookup l k).isSome`;
* Python non-negative `int` counts are `Nat`; the single floating-point value of
  the code (the confidence ratio in `get_normalization_rules`) is embedded as an
  exact rational `ℚ`;
* `unicodedata.normalize('NFC', ·)` is an external CPython library routine; it
  is embedded by the canonical-composition algorithm over an explicit finite
  fragment of the Unicode Character Database (the characters occurring in this
  development: U+0065 e, U+0061 a, U+0301 combining acute, U+00E9, U+00E1, and
  all characters with neither a canonical decomposition nor a canonical
  composition, which the algorithm leaves untouched).  All modelled characters
  have canonical combining class 0 except U+0301 (class 230), so the canonical
  reordering step of the Unicode algorithm is the identity here and is omitted.
-/

/-- A Python string: a sequence of Unicode code points. -/
abbrev Str := List Char

/-- Code points of a Lean string literal, used to write concrete inputs. -/
def strOf (s : String) : Str := s.data

/-- Association-list lookup, the embedding of Python `dict` key access
(first matching key wins; JSON-loaded dicts have unique keys). -/
def alookup {α β : Type} [DecidableEq α] : List (α × β) → α → Option β
  | [], _ => none
  | (k, v) :: rest, a => if a = k then some v else alookup rest a

/-- Python `d.get(k, 0)` on a frequency table. -/
def aget {α : Type} [DecidableEq α] (l : List (α × Nat)) (a : α) : Nat :=
  (alookup l a).getD 0

/-- Python `k in d` on a frequency table. -/
def amem {α : Type} [DecidableEq α] (l : List (α × Nat)) (a : α) : Prop :=
  (alookup l a).isSome

instance {α : Type} [DecidableEq α] (l : List (α × Nat)) (a : α) :
    Decidable (amem l a) := by
  unfold amem; infer_instance

/-! ## `extract_from_predictions.py`: bounded Levenshtein distance

`levenshtein_distance(s1, s2, max_dist)` runs the classic rolling-row dynamic
program over `s2` (outer loop) and `s1` (inner loop), with two early exits:
a length-difference bail-out before the table is built, and a row-minimum
cut-off after each row. -/

/-- Reference specification: the textbook Levenshtein edit distance. -/
def levRec : Str → Str → Nat
  | [], t => t.length
  | s, [] => s.length
  | a :: s, b :: t =>
    if a = b then levRec s t
    else 1 + min (levRec s t) (min (levRec (a :: s) t) (levRec s (b :: t)))
  termination_by s t => s.length + t.length

/-- One inner pass of the DP: given the previous row `prev` (paired positionally
with the characters of `s1`), the current character `c2` of `s2` and the last
value `last` already appended to the new row, produce the rest of the new row.
Mirrors the `for i1, c1 in enumerate(s1)` loop body of `levenshtein_distance`. -/
def rowAux : List Nat → Str → Char → Nat → List Nat
  | d0 :: d1 :: rest, c1 :: cs, c2, last =>
    let entry := if c1 = c2 then d0 else 1 + min d0 (min d1 last)
    entry :: rowAux (d1 :: rest) cs c2 entry
  | _, _, _, _ => []

/-- Minimum of a list of naturals (`min(new_distances)` in the code; the row is
never empty, so the default `0` is never the returned minimum). -/
def minL : List Nat → Nat
  | [] => 0
  | [x] => x
  | x :: y :: rest => min x (minL (y :: rest))

/-- The outer `for i2, c2 in enumerate(s2)` loop of `levenshtein_distance`,
including the per-row `if min(new_distances) > max_dist: return max_dist + 1`
cut-off; at the end it returns `distances[-1]`. -/
def levLoop (maxDist : Nat) (s1 : Str) : List Nat → Str → Nat → Nat
  | dists, [], _ => (dists.getLast?).getD 0
  | dists, c2 :: rest, i2 =>
    let nd := (i2 + 1) :: rowAux dists s1 c2 (i2 + 1)
    if maxDist < minL nd then maxDist + 1 else levLoop maxDist s1 nd rest (i2 + 1)

/-- `levenshtein_distance(s1, s2, max_dist)` from `extract_from_predictions.py`:
the length bail-out, the swap making `s1` the shorter string, and the DP loop. -/
def pyLev (s1 s2 : Str) (maxDist : Nat) : Nat :=
  if maxDist < max s1.length s2.length - min s1.length s2.length then maxDist + 1
  else
    let p := if s2.length < s1.length then (s2, s1) else (s1, s2)
    levLoop maxDist p.1 (List.range (p.1.length + 1)) p.2 0

/-! ## `extract_from_predictions.py`: mismatch extraction and validation -/

/-- Python `str.split()` (also `re.sub(r'\s+', ...)`-style whitespace): the
whitespace characters relevant to this development. -/
def isSpaceCh (c : Char) : Bool :=
  c = ' ' ∨ c = '\t' ∨ c = '\n' ∨ c = '\r' ∨ c = '\x0b' ∨ c = '\x0c'

/-- Helper for `splitWs`: `acc` holds the characters of the current word in
reverse; a whitespace character closes the word, the end of input flushes it. -/
def splitWsAux : Str → Str → List Str
  | [], acc => if acc.isEmpty then [] else [acc.reverse]
  | c :: cs, acc =>
    if isSpaceCh c then
      if acc.isEmpty then splitWsAux cs [] else acc.reverse :: splitWsAux cs []
    else splitWsAux cs (c :: acc)

/-- Python `text.split()`: maximal runs of non-whitespace characters. -/
def splitWs (l : Str) : List Str := splitWsAux l []

/-- The word-level mismatch pairs collected from one aligned word-list pair by
`extract_mismatched_words`: positional `zip`, skip equal words, keep pairs whose
bounded edit distance `d` satisfies `0 < d ≤ 3`. -/
def wordsMismatch (refWords hypWords : List Str) : List (Str × Str) :=
  (refWords.zip hypWords).filter fun p =>
    p.1 ≠ p.2 ∧ 0 < pyLev p.1 p.2 3 ∧ pyLev p.1 p.2 3 ≤ 3

/-- One prediction item: `{'ground_truth': ..., 'prediction': ...}`. -/
structure PredItem where
  groundTruth : Str
  prediction : Str

/-- All mismatch pairs of a prediction item
(`ref_words = item['ground_truth'].split()`, positional comparison). -/
def itemPairs (it : PredItem) : List (Str × Str) :=
  wordsMismatch (splitWs it.groundTruth) (splitWs it.prediction)

/-- All mismatch pairs over a prediction set, in scan order; the code then
aggregates equal pairs by count, which cannot resurrect a dropped position. -/
def allMismatchPairs (items : List PredItem) : List (Str × Str) :=
  items.flatMap itemPairs

/-- The `recommendation` values assigned by `validate_against_corpus`. -/
inductive Recommendation where
  | acceptBoth | preferRef | preferHyp | manualReview
  deriving DecidableEq, Repr

/-- The words of the scanned corpus prefix: `validate_against_corpus` increments
`line_count` and breaks once it exceeds `max_lines`, so exactly the first
`max_lines` lines are scanned, each split on whitespace. -/
def scannedWords (corpusLines : List Str) (maxLines : Nat) : List Str :=
  (corpusLines.take maxLines).flatMap splitWs

/-- `word_exists[w]` after the corpus scan: a word is marked present only if it
is among the words to check and occurs in the scanned prefix. -/
def wordExists (ms : List (Str × Str)) (corpusLines : List Str) (maxLines : Nat)
    (w : Str) : Bool :=
  decide (w ∈ ms.flatMap (fun m => [m.1, m.2])) &&
    decide (w ∈ scannedWords corpusLines maxLines)

/-- The recommendation branch of `validate_against_corpus` for one record. -/
def recommendOf (refIn hypIn : Bool) : Recommendation :=
  if refIn && hypIn then .acceptBoth
  else if !refIn && hypIn then .preferHyp
  else if refIn && !hypIn then .preferRef
  else .manualReview

/-- `validate_against_corpus(mismatches, corpus_path, max_lines)`: tags every
mismatch record with its recommendation. -/
def validateAgainstCorpus (ms : List (Str × Str)) (corpusLines : List Str)
    (maxLines : Nat) : List ((Str × Str) × Recommendation) :=
  ms.map fun m =>
    (m, recommendOf (wordExists ms corpusLines maxLines m.1)
          (wordExists ms corpusLines maxLines m.2))

/-! ### Claim C4: the recommendation is determined by corpus presence -/

/-- Claim C4: for every mismatch record processed by `validate_against_corpus`,
the recommendation is `ACCEPT_BOTH` exactly when both `ref_word` and `hyp_word`
occur in the scanned corpus prefix, `PREFER_REF` exactly when only `ref_word`
occurs, `PREFER_HYP` exactly when only `hyp_word` occurs, and `MANUAL_REVIEW`
exactly when neither occurs. -/
theorem c4_recommendation_cases (ms : List (Str × Str)) (corpusLines : List Str)
    (maxLines : Nat) (p : Str × Str) (r : Recommendation)
    (hmem : (p, r) ∈ validateAgainstCorpus ms corpusLines maxLines) :
    (r = .acceptBoth ↔
      p.1 ∈ scannedWords corpusLines maxLines ∧
      p.2 ∈ scannedWords corpusLines maxLines) ∧
    (r = .preferRef ↔
      p.1 ∈ scannedWords corpusLines maxLines ∧
      p.2 ∉ scannedWords corpusLines maxLines) ∧
    (r = .preferHyp ↔
      p.1 ∉ scannedWords corpusLines maxLines ∧
      p.2 ∈ scannedWords corpusLines maxLines) ∧
    (r = .manualReview ↔
      p.1 ∉ scannedWords corpusLines maxLines ∧
      p.2 ∉ scannedWords corpusLines maxLines) := by
  simp only [validateAgainstCorpus, List.mem_map] at hmem
  obtain ⟨m, hm, heq⟩ := hmem
  cases heq
  have h1 : p.1 ∈ ms.flatMap (fun m => [m.1, m.2]) := by
    simp only [List.mem_flatMap]
    exact ⟨p, hm, by simp⟩
  have h2 : p.2 ∈ ms.flatMap (fun m => [m.1, m.2]) := by
    simp only [List.mem_flatMap]
    exact ⟨p, hm, by simp⟩
  have e1 : wordExists ms corpusLines maxLines p.1 =
      decide (p.1 ∈ scannedWords corpusLines maxLines) := by
    simp [wordExists, h1]
  have e2 : wordExists ms corpusLines maxLines p.2 =
      decide (p.2 ∈ scannedWords corpusLines maxLines) := by
    simp [wordExists, h2]
  rw [e1, e2]
  unfold recommendOf
  by_cases hin1 : p.1 ∈ scannedWords corpusLines maxLines <;>
    by_cases hin2 : p.2 ∈ scannedWords corpusLines maxLines <;>
      simp [hin1, hin2]

/-- Witness for C4 at a concrete input: with corpus line `"ab cd"`, the record
`("ab", "zz")` gets `PREFER_REF` since only the reference word is attested. -/
theorem c4_recommendation_cases_witness :
    ((strOf "ab", strOf "zz"), Recommendation.preferRef) ∈
      validateAgainstCorpus [(strOf "ab", strOf "zz")] [strOf "ab cd"] 1 ∧
    (Recommendation.preferRef = .preferRef ↔
      strOf "ab" ∈ scannedWords [strOf "ab cd"] 1 ∧
      strOf "zz" ∉ scannedWords [strOf "ab cd"] 1) := by
  refine ⟨by decide, ?_⟩
  exact (c4_recommendation_cases [(strOf "ab", strOf "zz")] [strOf "ab cd"] 1
    (strOf "ab", strOf "zz") Recommendation.preferRef (by decide)).2.1

/-! ### Claim C10: positional zip drops the tail of the longer transcript -/

/-- `zip` only looks at the first `min` elements of each list. -/
theorem zip_take_min {α β : Type} :
    ∀ (l1 : List α) (l2 : List β),
      l1.zip l2 = (l1.take (min l1.length l2.length)).zip
        (l2.take (min l1.length l2.length))
  | [], _ => by simp
  | _ :: _, [] => by simp
  | a :: as, b :: bs => by
    have ih := zip_take_min as bs
    simp only [List.zip_cons_cons, List.length_cons]
    rw [Nat.succ_min_succ, List.take_succ_cons, List.take_succ_cons,
      List.zip_cons_cons]
    exact congrArg _ ih

/-- Claim C10: `extract_mismatched_words` compares reference and hypothesis
words only up to the length of the shorter word list: the collected mismatch
pairs for a pair of word lists are exactly those of the truncated lists, and
every collected pair comes from a position `j` below both lengths. -/
theorem c10_zip_truncation (refWords hypWords : List Str) :
    wordsMismatch refWords hypWords =
      wordsMismatch
        (refWords.take (min refWords.length hypWords.length))
        (hypWords.take (min refWords.length hypWords.length)) ∧
    ∀ p ∈ wordsMismatch refWords hypWords,
      ∃ j, j < min refWords.length hypWords.length ∧
        refWords[j]? = some p.1 ∧ hypWords[j]? = some p.2 := by
  constructor
  · unfold wordsMismatch
    rw [← zip_take_min]
  · intro p hp
    have hz : p ∈ refWords.zip hypWords := List.mem_of_mem_filter hp
    obtain ⟨j, hj⟩ := List.mem_iff_getElem?.mp hz
    have := (List.getElem?_zip_eq_some).mp (by rw [hj])
    obtain ⟨h1, h2⟩ := this
    refine ⟨j, ?_, h1, h2⟩
    have hl1 : j < refWords.length := by
      by_contra hge
      rw [List.getElem?_eq_none (by omega)] at h1
      exact Option.noConfusion h1
    have hl2 : j < hypWords.length := by
      by_contra hge
      rw [List.getElem?_eq_none (by omega)] at h2
      exact Option.noConfusion h2
    omega

/-- Witness for C10: with a 2-word reference and 1-word hypothesis, the single
collected pair comes from position 0; the trailing reference word is dropped. -/
theorem c10_zip_truncation_witness :
    ∃ j, j < min [strOf "ab", strOf "cd"].length [strOf "ax"].length ∧
      [strOf "ab", strOf "cd"][j]? = some (strOf "ab", strOf "ax").1 ∧
      [strOf "ax"][j]? = some (strOf "ab", strOf "ax").2 :=
  (c10_zip_truncation [strOf "ab", strOf "cd"] [strOf "ax"]).2
    (strOf "ab", strOf "ax") (by decide)

/-! ## Unicode NFC, on the finite UCD fragment described in the header

`unicodedata.normalize('NFC', text)` canonically decomposes the text, reorders
combining marks by combining class, and recomposes.  On the modelled fragment
every character has combining class 0 except U+0301 (class 230), so no two
adjacent characters ever need reordering and that step is the identity. -/

/-- Canonical decomposition of one character (UCD fragment):
U+00E9 ≡ U+0065 U+0301 and U+00E1 ≡ U+0061 U+0301. -/
def decompCh (c : Char) : Str :=
  if c = 'é' then ['e', '́']
  else if c = 'á' then ['a', '́']
  else [c]

/-- Primary canonical composition of an ordered character pair (UCD fragment). -/
def composeCh (c x : Char) : Option Char :=
  if x = '́' then
    if c = 'e' then some 'é' else if c = 'a' then some 'á' else none
  else none

/-- The canonical composition pass: `c` is the pending (starter or lone)
character, composed with the following character whenever possible. -/
def nfcGo : Char → Str → Str
  | c, [] => [c]
  | c, x :: xs =>
    match composeCh c x with
    | some y => nfcGo y xs
    | none => c :: nfcGo x xs

/-- Run the composition pass over a fully decomposed sequence. -/
def nfcRun : Str → Str
  | [] => []
  | c :: cs => nfcGo c cs

/-- Full canonical decomposition of a sequence. -/
def nfcDecomp (l : Str) : Str := l.flatMap decompCh

/-- `unicodedata.normalize('NFC', ·)` on the modelled fragment. -/
def nfcL (l : Str) : Str := nfcRun (nfcDecomp l)

/-- `unicodedata.is_normalized('NFC', ·)`: the text is its own NFC form. -/
abbrev isNFC (l : Str) : Prop := nfcL l = l

/-! ## `corpus_analyzer.py`: CorpusAnalyzer -/

/-- `is_kannada_char`: code point in the Kannada block U+0C80 – U+0CFF. -/
def isKnCh (c : Char) : Bool :=
  0x0C80 ≤ c.toNat ∧ c.toNat ≤ 0x0CFF

/-- Helper for `tokenize`: maximal runs of Kannada characters
(`re.findall(r'[ಀ-೿]+', text)`); `acc` is the current run reversed. -/
def knRunsAux : Str → Str → List Str
  | [], acc => if acc.isEmpty then [] else [acc.reverse]
  | c :: cs, acc =>
    if isKnCh c then knRunsAux cs (c :: acc)
    else if acc.isEmpty then knRunsAux cs []
    else acc.reverse :: knRunsAux cs []

/-- Python `str.strip()` of leading whitespace. -/
def trimL (l : Str) : Str := l.dropWhile (fun c => isSpaceCh c)

/-- Python `str.strip()` of trailing whitespace. -/
def trimR (l : Str) : Str := (l.reverse.dropWhile (fun c => isSpaceCh c)).reverse

/-- Python `str.strip()`. -/
def pyStrip (l : Str) : Str := trimL (trimR l)

/-- `CorpusAnalyzer.tokenize`: NFC-normalize, extract Kannada runs, keep the
non-empty ones. -/
def tokenize (text : Str) : List Str :=
  (knRunsAux (nfcL text) []).filter fun t => 0 < t.length

/-- The lines actually processed by `analyze_file`: the loop body starts with
`if max_lines and line_count >= max_lines: break`, a truthiness test, so a
`None` or `0` cap never breaks. -/
def linesToProcess (maxLines : Option Nat) : Nat → List Str → List Str
  | _, [] => []
  | count, l :: ls =>
    if (match maxLines with
        | none => false
        | some m => decide (m ≠ 0) && decide (m ≤ count)) then []
    else l :: linesToProcess maxLines (count + 1) ls

/-- Tokens of one corpus line (`self.tokenize(line.strip())`). -/
def lineTokens (line : Str) : List Str := tokenize (pyStrip line)

/-- `zip(tokens[:-1], tokens[1:])` guarded by `len(tokens) >= 2`. -/
def bigramsOf (tokens : List Str) : List (Str × Str) :=
  if 2 ≤ tokens.length then tokens.zip tokens.tail else []

/-- `zip(tokens[:-2], tokens[1:-1], tokens[2:])` guarded by `len >= 3`. -/
def trigramsOf (tokens : List Str) : List (Str × Str × Str) :=
  if 3 ≤ tokens.length then tokens.zip (tokens.tail.zip tokens.tail.tail) else []

/-- The three frequency tables built by `analyze_file`; a `Counter` is embedded
as its count function. -/
structure Freqs where
  wordFreq : Str → Nat
  bigramFreq : Str × Str → Nat
  trigramFreq : Str × Str × Str → Nat

/-- `CorpusAnalyzer.analyze_file(corpus_path, max_lines)`: stream the lines,
tokenize, and accumulate unigram/bigram/trigram counts. -/
def analyzeFile (maxLines : Option Nat) (lines : List Str) : Freqs :=
  let toks := (linesToProcess maxLines 0 lines).map lineTokens
  { wordFreq := fun w => (toks.flatMap id).count w
    bigramFreq := fun b => (toks.flatMap bigramsOf).count b
    trigramFreq := fun t => (toks.flatMap trigramsOf).count t }

/-! ### Claim C9: `max_lines=0` behaves like `max_lines=None` -/

theorem linesToProcess_none : ∀ (count : Nat) (l : List Str),
    linesToProcess none count l = l
  | _, [] => rfl
  | count, x :: ls => by
    have ih := linesToProcess_none (count + 1) ls
    simp [linesToProcess, ih]

theorem linesToProcess_zero : ∀ (count : Nat) (l : List Str),
    linesToProcess (some 0) count l = l
  | _, [] => rfl
  | count, x :: ls => by
    have ih := linesToProcess_zero (count + 1) ls
    simp [linesToProcess, ih]

theorem linesToProcess_pos (m : Nat) (hm : 0 < m) : ∀ (l : List Str) (count : Nat),
    linesToProcess (some m) count l = l.take (m - count)
  | [], count => by simp [linesToProcess]
  | x :: ls, count => by
    by_cases h : m ≤ count
    · have h0 : m - count = 0 := by omega
      have hne : m ≠ 0 := by omega
      simp [linesToProcess, h, hne, h0]
    · have ih := linesToProcess_pos m hm ls (count + 1)
      have h2 : m - count = (m - (count + 1)) + 1 := by omega
      simp [linesToProcess, h, ih, h2]

/-- Claim C9: `analyze_file` treats `max_lines=0` like `max_lines=None` (the
cap is tested for truthiness, so a zero cap is ignored and every line is
processed), while a positive `max_lines` processes exactly the first
`max_lines` lines. -/
theorem c9_max_lines_truthiness (lines : List Str) :
    analyzeFile (some 0) lines = analyzeFile none lines ∧
    (∀ m, 0 < m →
      analyzeFile (some m) lines = analyzeFile none (lines.take m)) := by
  constructor
  · unfold analyzeFile
    rw [linesToProcess_zero, linesToProcess_none]
  · intro m hm
    unfold analyzeFile
    rw [linesToProcess_pos m hm lines 0, linesToProcess_none, Nat.sub_zero]

/-- Witness for C9: a positive cap of 2 on a concrete 3-line corpus processes
exactly the first two lines. -/
theorem c9_max_lines_truthiness_witness :
    analyzeFile (some 2) [strOf "ಅಬ ಕಡ", strOf "ಕಡ", strOf "ಅಬ"] =
      analyzeFile none ([strOf "ಅಬ ಕಡ", strOf "ಕಡ", strOf "ಅಬ"].take 2) :=
  (c9_max_lines_truthiness [strOf "ಅಬ ಕಡ", strOf "ಕಡ", strOf "ಅಬ"]).2 2
    (by decide)

/-! ## `corpus_analyzer.py`: compound variations and normalization rules

`find_compound_variations` returns a dict keyed by the sorted pair
`(word, spaced_form)` holding lists of variation records.  Since corpus words
contain no space, a key determines the word, the spaced form and hence the
split point, so every value list is a singleton; the dict is embedded as the
flat list of its records in iteration order. -/

/-- One variation record produced by `find_compound_variations`. -/
structure Variation where
  compound : Str
  spaced : Str
  compoundFreq : Nat
  spacedFreq : Nat
  part1 : Str
  part2 : Str
  deriving DecidableEq, Repr

/-- The inner `for i in range(2, len(word) - 1)` loop of
`find_compound_variations`: both parts must be attested words and the bigram
`(part1, part2)` must meet `min_freq`. -/
def splitCandidates (wf : List (Str × Nat)) (bg : List ((Str × Str) × Nat))
    (minFreq : Nat) (w : Str) (f : Nat) : List Variation :=
  (List.range' 2 (w.length - 3)).filterMap fun i =>
    let part1 := w.take i
    let part2 := w.drop i
    if (alookup wf part1).isSome ∧ (alookup wf part2).isSome ∧
        minFreq ≤ aget bg (part1, part2) then
      some { compound := w, spaced := part1 ++ ' ' :: part2, compoundFreq := f,
             spacedFreq := aget bg (part1, part2), part1 := part1,
             part2 := part2 }
    else none

/-- `CorpusAnalyzer.find_compound_variations(min_freq)`: for every word with
frequency at least `min_freq` and length at least 4, try every internal split
point.  (The code iterates `word_freq.most_common()` and `continue`s past
low-frequency and short words; membership in the result is order-independent.) -/
def findCompoundVariations (wf : List (Str × Nat))
    (bg : List ((Str × Str) × Nat)) (minFreq : Nat) : List Variation :=
  (wf.filter fun p => minFreq ≤ p.2 ∧ 4 ≤ p.1.length).flatMap fun p =>
    splitCandidates wf bg minFreq p.1 p.2

/-! ### Claim C1: the bigram gate characterizes proposed variations -/

/-- Claim C1: a compound/spaced variation for `word` at internal split point
`i ∈ [2, len-1)` is proposed by `find_compound_variations(min_freq)` exactly
when both `word[:i]` and `word[i:]` are present in the word-frequency table and
the bigram `(word[:i], word[i:])` has frequency at least `min_freq`. -/
theorem c1_bigram_gate (wf : List (Str × Nat)) (bg : List ((Str × Str) × Nat))
    (minFreq : Nat) (word : Str) (freq : Nat)
    (hw : (word, freq) ∈ wf) (hf : minFreq ≤ freq) (hl : 4 ≤ word.length)
    (i : Nat) (hi2 : 2 ≤ i) (hiu : i < word.length - 1) :
    (∃ v ∈ findCompoundVariations wf bg minFreq,
      v.compound = word ∧ v.part1 = word.take i ∧ v.part2 = word.drop i) ↔
    ((alookup wf (word.take i)).isSome ∧ (alookup wf (word.drop i)).isSome ∧
      minFreq ≤ aget bg (word.take i, word.drop i)) := by
  constructor
  · rintro ⟨v, hv, hcomp, hp1, hp2⟩
    simp only [findCompoundVariations, List.mem_flatMap, List.mem_filter] at hv
    obtain ⟨p, ⟨hpmem, hpcond⟩, hsplit⟩ := hv
    simp only [splitCandidates, List.mem_filterMap, List.mem_range'_1] at hsplit
    obtain ⟨j, ⟨hj2, hju⟩, hcond⟩ := hsplit
    by_cases hc : (alookup wf (p.1.take j)).isSome ∧
        (alookup wf (p.1.drop j)).isSome ∧
        minFreq ≤ aget bg (p.1.take j, p.1.drop j)
    · rw [if_pos hc] at hcond
      have hveq := Option.some.inj hcond
      rw [← hveq] at hcomp hp1 hp2
      have hwordeq : p.1 = word := hcomp
      subst hwordeq
      have hp1' : p.1.take j = p.1.take i := hp1
      have hjlen : j ≤ p.1.length := by omega
      have hilen : i ≤ p.1.length := by omega
      have hij : j = i := by
        have := congrArg List.length hp1'
        simpa [List.length_take, Nat.min_eq_left hjlen,
          Nat.min_eq_left hilen] using this
      subst hij
      exact hc
    · rw [if_neg hc] at hcond
      exact absurd hcond (by simp)
  · rintro ⟨h1, h2, h3⟩
    refine ⟨{ compound := word, spaced := word.take i ++ ' ' :: word.drop i,
              compoundFreq := freq,
              spacedFreq := aget bg (word.take i, word.drop i),
              part1 := word.take i, part2 := word.drop i }, ?_, rfl, rfl, rfl⟩
    simp only [findCompoundVariations, List.mem_flatMap, List.mem_filter]
    refine ⟨(word, freq), ⟨hw, by simp [hf, hl]⟩, ?_⟩
    simp only [splitCandidates, List.mem_filterMap, List.mem_range'_1]
    refine ⟨i, ⟨hi2, by omega⟩, ?_⟩
    rw [if_pos ⟨h1, h2, h3⟩]

/-- Witness for C1: with `"abcd"` frequent, parts `"ab"`, `"cd"` attested and
bigram count 6 ≥ min_freq 5, the variation at split 2 is proposed. -/
theorem c1_bigram_gate_witness :
    ∃ v ∈ findCompoundVariations
      [(strOf "abcd", 7), (strOf "ab", 3), (strOf "cd", 9)]
      [((strOf "ab", strOf "cd"), 6)] 5,
      v.compound = strOf "abcd" ∧ v.part1 = (strOf "abcd").take 2 ∧
        v.part2 = (strOf "abcd").drop 2 :=
  (c1_bigram_gate [(strOf "abcd", 7), (strOf "ab", 3), (strOf "cd", 9)]
    [((strOf "ab", strOf "cd"), 6)] 5 (strOf "abcd") 7 (by decide) (by decide)
    (by decide) 2 (by decide) (by decide)).mpr (by decide)

/-! ### `get_normalization_rules` and Claim C3 -/

/-- A normalization rule (`VariantRule` of the spec); `confidence` is the
Python float `freq_ratio`, embedded as an exact rational. -/
structure VRule where
  source : Str
  target : Str
  sourceFreq : Nat
  targetFreq : Nat
  confidence : ℚ
  deriving DecidableEq, Repr

/-- The body of the `for var in var_list` loop of `get_normalization_rules`:
prefer whichever form is more frequent, and keep the rule only if the
frequency ratio exceeds 1.5.  The `source == var['compound']` /
`target == var['spaced']` string tests of the code are kept verbatim. -/
def ruleOfVariation (v : Variation) : Option VRule :=
  if v.spacedFreq < v.compoundFreq then
    let ratio : ℚ := (v.compoundFreq : ℚ) / ((max v.spacedFreq 1 : Nat) : ℚ)
    if 3 / 2 < ratio then
      some { source := v.spaced, target := v.compound,
             sourceFreq := if v.spaced = v.compound then v.compoundFreq
               else v.spacedFreq,
             targetFreq := if v.compound = v.spaced then v.spacedFreq
               else v.compoundFreq,
             confidence := ratio }
    else none
  else
    let ratio : ℚ := (v.spacedFreq : ℚ) / ((max v.compoundFreq 1 : Nat) : ℚ)
    if 3 / 2 < ratio then
      some { source := v.compound, target := v.spaced,
             sourceFreq := if v.compound = v.compound then v.compoundFreq
               else v.spacedFreq,
             targetFreq := if v.spaced = v.spaced then v.spacedFreq
               else v.compoundFreq,
             confidence := ratio }
    else none

/-- Stable descending insertion by confidence (the embedding of Python's
stable `rules.sort(key=lambda x: x['confidence'], reverse=True)`). -/
def insertRule (r : VRule) : List VRule → List VRule
  | [] => [r]
  | x :: xs =>
    if x.confidence < r.confidence then r :: x :: xs else x :: insertRule r xs

/-- Sort rules by descending confidence. -/
def sortRulesDesc (l : List VRule) : List VRule := l.foldr insertRule []

/-- `CorpusAnalyzer.get_normalization_rules(variations)`. -/
def getNormalizationRules (vars : List Variation) : List VRule :=
  sortRulesDesc (vars.filterMap ruleOfVariation)

theorem mem_insertRule {x r : VRule} : ∀ {l : List VRule},
    x ∈ insertRule r l ↔ x = r ∨ x ∈ l
  | [] => by simp [insertRule]
  | y :: ys => by
    by_cases h : y.confidence < r.confidence
    · simp [insertRule, h]
    · simp only [insertRule, h, if_false, List.mem_cons]
      rw [mem_insertRule (l := ys)]
      tauto

theorem sorted_insertRule {r : VRule} : ∀ {l : List VRule},
    List.Sorted (fun a b : VRule => b.confidence ≤ a.confidence) l →
    List.Sorted (fun a b : VRule => b.confidence ≤ a.confidence)
      (insertRule r l)
  | [], _ => by simp [insertRule]
  | y :: ys, hs => by
    rw [List.sorted_cons] at hs
    obtain ⟨hy, hys⟩ := hs
    by_cases h : y.confidence < r.confidence
    · rw [insertRule, if_pos h, List.sorted_cons]
      refine ⟨?_, by rw [List.sorted_cons]; exact ⟨hy, hys⟩⟩
      intro b hb
      rcases List.mem_cons.mp hb with rfl | hb'
      · exact le_of_lt h
      · exact le_trans (hy b hb') (le_of_lt h)
    · rw [insertRule, if_neg h, List.sorted_cons]
      refine ⟨?_, sorted_insertRule hys⟩
      intro b hb
      rcases mem_insertRule.mp hb with rfl | hb'
      · exact le_of_not_lt h
      · exact hy b hb'

theorem sorted_sortRulesDesc : ∀ (l : List VRule),
    List.Sorted (fun a b : VRule => b.confidence ≤ a.confidence)
      (sortRulesDesc l)
  | [] => by simp [sortRulesDesc]
  | x :: xs => by
    rw [sortRulesDesc, List.foldr_cons]
    exact sorted_insertRule (sorted_sortRulesDesc xs)

theorem mem_sortRulesDesc {x : VRule} : ∀ {l : List VRule},
    x ∈ sortRulesDesc l ↔ x ∈ l
  | [] => Iff.rfl
  | y :: ys => by
    rw [sortRulesDesc, List.foldr_cons, mem_insertRule, List.mem_cons]
    rw [← sortRulesDesc, mem_sortRulesDesc (l := ys)]

/-- Every variation produced by `find_compound_variations(min_freq)` carries
its compound frequency (≥ `min_freq`), its bigram frequency (≥ `min_freq`),
and a spaced form exactly one character longer than the compound form. -/
theorem findCompoundVariations_shape (wf : List (Str × Nat))
    (bg : List ((Str × Str) × Nat)) (minFreq : Nat) :
    ∀ v ∈ findCompoundVariations wf bg minFreq,
      minFreq ≤ v.compoundFreq ∧ minFreq ≤ v.spacedFreq ∧
      v.spaced.length = v.compound.length + 1 := by
  intro v hv
  simp only [findCompoundVariations, List.mem_flatMap, List.mem_filter] at hv
  obtain ⟨p, ⟨hpmem, hpc⟩, hsplit⟩ := hv
  simp only [decide_eq_true_eq] at hpc
  simp only [splitCandidates, List.mem_filterMap, List.mem_range'_1] at hsplit
  obtain ⟨j, ⟨hj2, hju⟩, hcond⟩ := hsplit
  by_cases hc : (alookup wf (p.1.take j)).isSome ∧
      (alookup wf (p.1.drop j)).isSome ∧
      minFreq ≤ aget bg (p.1.take j, p.1.drop j)
  · rw [if_pos hc] at hcond
    have hveq := Option.some.inj hcond
    subst hveq
    have hjl : j ≤ p.1.length := by omega
    refine ⟨hpc.1, hc.2.2, ?_⟩
    simp [List.length_take, List.length_drop, Nat.min_eq_left hjl]
    omega
  · rw [if_neg hc] at hcond
    exact absurd hcond (by simp)

/-- Per-variation rule shape: whenever `get_normalization_rules` keeps a rule
built from a variation with both frequencies positive and distinct forms, the
rule points at the strictly more frequent form with the exact ratio. -/
theorem ruleOfVariation_props (v : Variation) (r : VRule)
    (h : ruleOfVariation v = some r)
    (hc1 : 1 ≤ v.compoundFreq) (hs1 : 1 ≤ v.spacedFreq)
    (hlen : v.spaced.length = v.compound.length + 1) :
    r.source ≠ r.target ∧ r.sourceFreq < r.targetFreq ∧
    r.confidence = (r.targetFreq : ℚ) / (r.sourceFreq : ℚ) ∧
    (3 : ℚ) / 2 < r.confidence := by
  have hne : v.spaced ≠ v.compound := by
    intro he; rw [he] at hlen; omega
  unfold ruleOfVariation at h
  by_cases hlt : v.spacedFreq < v.compoundFreq
  · rw [if_pos hlt] at h
    simp only [if_neg hne, if_neg (Ne.symm hne)] at h
    by_cases hr : (3 : ℚ) / 2 <
        (v.compoundFreq : ℚ) / ((max v.spacedFreq 1 : Nat) : ℚ)
    · rw [if_pos hr] at h
      have hveq := (Option.some.inj h).symm
      have hmax : max v.spacedFreq 1 = v.spacedFreq := Nat.max_eq_left hs1
      subst hveq
      rw [hmax] at hr ⊢
      exact ⟨hne, hlt, rfl, hr⟩
    · rw [if_neg hr] at h
      exact absurd h (by simp)
  · rw [if_neg hlt] at h
    simp only [if_pos rfl] at h
    by_cases hr : (3 : ℚ) / 2 <
        (v.spacedFreq : ℚ) / ((max v.compoundFreq 1 : Nat) : ℚ)
    · rw [if_pos hr] at h
      have hveq := (Option.some.inj h).symm
      have hmax : max v.compoundFreq 1 = v.compoundFreq := Nat.max_eq_left hc1
      subst hveq
      rw [hmax] at hr ⊢
      have hcpos : (0 : ℚ) < (v.compoundFreq : ℚ) := by
        exact_mod_cast hc1
      have hfreqlt : v.compoundFreq < v.spacedFreq := by
        rw [lt_div_iff₀ hcpos] at hr
        have hone : (1 : ℚ) ≤ (v.compoundFreq : ℚ) := by exact_mod_cast hc1
        have : (v.compoundFreq : ℚ) < (v.spacedFreq : ℚ) := by linarith
        exact_mod_cast this
      exact ⟨Ne.symm hne, hfreqlt, rfl, hr⟩
    · rw [if_neg hr] at h
      exact absurd h (by simp)

/-- Claim C3: every rule returned by
`get_normalization_rules(find_compound_variations(min_freq))` (for any
`min_freq ≥ 1`) has distinct source and target, points toward the strictly
more frequent form, carries as confidence the exact frequency ratio of the
preferred to the dispreferred form, exceeding 1.5; and the returned list is
sorted by descending confidence. -/
theorem c3_rule_invariants (wf : List (Str × Nat))
    (bg : List ((Str × Str) × Nat)) (minFreq : Nat) (hmf : 1 ≤ minFreq) :
    (∀ r ∈ getNormalizationRules (findCompoundVariations wf bg minFreq),
      r.source ≠ r.target ∧ r.sourceFreq < r.targetFreq ∧
      r.confidence = (r.targetFreq : ℚ) / (r.sourceFreq : ℚ) ∧
      (3 : ℚ) / 2 < r.confidence) ∧
    List.Sorted (fun a b : VRule => b.confidence ≤ a.confidence)
      (getNormalizationRules (findCompoundVariations wf bg minFreq)) := by
  constructor
  · intro r hr
    rw [getNormalizationRules, mem_sortRulesDesc] at hr
    obtain ⟨v, hv, hrv⟩ := List.mem_filterMap.mp hr
    obtain ⟨hvc, hvs, hvl⟩ := findCompoundVariations_shape wf bg minFreq v hv
    exact ruleOfVariation_props v r hrv (le_trans hmf hvc) (le_trans hmf hvs)
      hvl
  · exact sorted_sortRulesDesc _

/-- Witness for C3 at a concrete input: the theorem applies with
`min_freq = 3` to concrete tables containing the frequent compound `"abcd"`. -/
theorem c3_rule_invariants_witness :
    List.Sorted (fun a b : VRule => b.confidence ≤ a.confidence)
      (getNormalizationRules (findCompoundVariations
        [(strOf "abcd", 9), (strOf "ab", 4), (strOf "cd", 5)]
        [((strOf "ab", strOf "cd"), 3)] 3)) :=
  (c3_rule_invariants [(strOf "abcd", 9), (strOf "ab", 4), (strOf "cd", 5)]
    [((strOf "ab", strOf "cd"), 3)] 3 (by decide)).2

/-! ## `corpus_normalizer.py`: CorpusBasedNormalizer

`normalize_punctuation` folds the three dash variants U+2013, U+2014, U+2212
to `-`; its four quote `replace` calls have byte-identical source and target
(plain ASCII `"` and `'` on both sides in the source file), i.e. they are
identity substitutions, so only the dash map is modelled.  Each substitution
has a single-character source, so the chain of `str.replace` calls is a
character map. -/

/-- The effective single-character substitutions of `normalize_punctuation`. -/
def punctPairs : List (Char × Char) :=
  [('–', '-'), ('—', '-'), ('−', '-')]

/-- The character map applied by `normalize_punctuation`. -/
def pcCh (c : Char) : Char := (alookup punctPairs c).getD c

/-- `CorpusBasedNormalizer.normalize_punctuation`. -/
def normalizePunctuation (l : Str) : Str := l.map pcCh

/-- `str.maketrans('೦೧೨೩೪೫೬೭೮೯', '0123456789')`. -/
def numPairs : List (Char × Char) :=
  [('೦', '0'), ('೧', '1'), ('೨', '2'), ('೩', '3'), ('೪', '4'),
   ('೫', '5'), ('೬', '6'), ('೭', '7'), ('೮', '8'), ('೯', '9')]

/-- The character map applied by `normalize_numerals` (`str.translate`). -/
def nmCh (c : Char) : Char := (alookup numPairs c).getD c

/-- `CorpusBasedNormalizer.normalize_numerals`. -/
def normalizeNumerals (l : Str) : Str := l.map nmCh

/-- `re.sub(r'\s+', ' ', text)`: collapse each maximal whitespace run to one
space; `inRun` records whether the previous character was whitespace. -/
def collapseWs : Bool → Str → Str
  | _, [] => []
  | inRun, c :: cs =>
    if isSpaceCh c then
      if inRun then collapseWs true cs else ' ' :: collapseWs true cs
    else c :: collapseWs false cs

/-- `CorpusBasedNormalizer.normalize_whitespace`: collapse runs, then
`strip()`. -/
def normalizeWhitespace (l : Str) : Str := pyStrip (collapseWs false l)

/-- Python `str.replace` with an empty pattern: the replacement is inserted
before every character and at the end. -/
def replEmpty (rep : Str) : Str → Str
  | [] => rep
  | c :: cs => rep ++ c :: replEmpty rep cs

/-- Python `str.replace` with a non-empty pattern: replace non-overlapping
occurrences left to right.  `fuel` (initially the text length, which never
runs out) makes the recursion structural: a match consumes the head plus
`pat.length - 1` further characters. -/
def replaceFuel (pat rep : Str) : Nat → Str → Str
  | _, [] => []
  | 0, l => l
  | fuel + 1, c :: cs =>
    if (c :: cs).take pat.length = pat then
      rep ++ replaceFuel pat rep fuel (cs.drop (pat.length - 1))
    else c :: replaceFuel pat rep fuel cs

/-- Python `text.replace(source, target)`. -/
def replaceAll (txt pat rep : Str) : Str :=
  if pat.isEmpty then replEmpty rep txt else replaceFuel pat rep txt.length txt

/-- Python dict assignment `m[k] = v`: overwrite in place or append. -/
def dictInsert (k v : Str) : List (Str × Str) → List (Str × Str)
  | [] => [(k, v)]
  | (k', v') :: rest =>
    if k' = k then (k, v) :: rest else (k', v') :: dictInsert k v rest

/-- `self.rule_map` as built by `load_rules`: `rule_map[source] = target` for
each rule in order. -/
def ruleMapOf (rules : List (Str × Str)) : List (Str × Str) :=
  rules.foldl (fun m r => dictInsert r.1 r.2 m) []

/-- `CorpusBasedNormalizer.apply_rules`: apply each rule of the rule map, in
iteration order, as a literal replace. -/
def applyRules (ruleMap : List (Str × Str)) (txt : Str) : Str :=
  ruleMap.foldl (fun t r => replaceAll t r.1 r.2) txt

/-- One step of the best-split search of `normalize_with_vocabulary`: the
state `(best_split, best_score)` is updated when both parts of the split at
`j` have positive frequency and the minimum of the two beats the best so
far. -/
def bsfStep (vocab : List (Str × Nat)) (token : Str)
    (acc : Option (Str × Str) × Nat) (j : Nat) : Option (Str × Str) × Nat :=
  let part1 := token.take j
  let part2 := token.drop j
  let freq1 := aget vocab part1
  let freq2 := aget vocab part2
  if 0 < freq1 ∧ 0 < freq2 ∧ acc.2 < min freq1 freq2 then
    (some (part1, part2), min freq1 freq2)
  else acc

/-- The inner `for j in range(2, len(token) - 1)` best-split search of
`normalize_with_vocabulary`. -/
def bestSplitFold (vocab : List (Str × Nat)) (token : Str) :
    Option (Str × Str) × Nat :=
  (List.range' 2 (token.length - 3)).foldl (bsfStep vocab token) (none, 0)

/-- The per-token branch of `normalize_with_vocabulary` when no merge fires:
keep a vocabulary token, otherwise use the best split if its score exceeds 10,
otherwise keep the token. -/
def tokenStep (vocab : List (Str × Nat)) (token : Str) : List Str :=
  if (alookup vocab token).isSome then [token]
  else
    match bestSplitFold vocab token with
    | (some p, score) => if 10 < score then [p.1, p.2] else [token]
    | (none, _) => [token]

/-- The `while i < len(tokens)` loop of `normalize_with_vocabulary`: merge the
current and next token when the compound beats `min(token_freq, next_freq)*2`
(consuming both), otherwise process the current token alone and advance. -/
def nwvAux (vocab : List (Str × Nat)) : List Str → List Str
  | [] => []
  | [t] => tokenStep vocab t
  | t :: u :: rest =>
    if min (aget vocab t) (aget vocab u) * 2 < aget vocab (t ++ u) then
      (t ++ u) :: nwvAux vocab rest
    else tokenStep vocab t ++ nwvAux vocab (u :: rest)

/-- `' '.join(...)`. -/
def joinSpace (l : List Str) : Str := List.intercalate [' '] l

/-- `CorpusBasedNormalizer.normalize_with_vocabulary`. -/
def normalizeWithVocabulary (vocab : List (Str × Nat)) (txt : Str) : Str :=
  joinSpace (nwvAux vocab (splitWs txt))

/-- `CorpusBasedNormalizer.normalize(text, use_vocab, use_rules)` on a string
input: the early return on falsy input, then the six pipeline stages. -/
def normalizeStr (vocab : List (Str × Nat)) (rules : List (Str × Str))
    (useVocab useRules : Bool) (txt : Str) : Str :=
  if txt.isEmpty then txt
  else
    let t1 := nfcL txt
    let t2 := normalizePunctuation t1
    let t3 := normalizeNumerals t2
    let t4 := if useRules && !rules.isEmpty then applyRules (ruleMapOf rules) t3
      else t3
    let t5 := if useVocab && !vocab.isEmpty then normalizeWithVocabulary vocab t4
      else t4
    normalizeWhitespace t5

/-- `normalize` on the Python value level: the input may also be `None`, which
the falsy test returns unchanged. -/
def normalizeOpt (vocab : List (Str × Nat)) (rules : List (Str × Str))
    (useVocab useRules : Bool) : Option Str → Option Str
  | none => none
  | some t => some (normalizeStr vocab rules useVocab useRules t)

/-! ### Claim C8: empty or `None` input returns unchanged -/

/-- Claim C8: calling `normalize` with `None` or the empty string returns the
input unchanged via the explicit early return `if not text: return text`, for
any loaded tables and any flag combination; no pipeline stage is applied and
no error is raised (the embedding is total). -/
theorem c8_empty_early_return (vocab : List (Str × Nat))
    (rules : List (Str × Str)) (useVocab useRules : Bool) :
    normalizeOpt vocab rules useVocab useRules none = none ∧
    normalizeStr vocab rules useVocab useRules [] = [] ∧
    normalizeOpt vocab rules useVocab useRules (some []) = some [] :=
  ⟨rfl, rfl, rfl⟩

/-! ### Claim C2: the greedy merge/split pass -/

theorem bsfStep_snd_le (vocab : List (Str × Nat)) (token : Str)
    (acc : Option (Str × Str) × Nat) (j : Nat) :
    acc.2 ≤ (bsfStep vocab token acc j).2 := by
  simp only [bsfStep]
  split
  · next h => exact le_of_lt h.2.2
  · exact le_refl _

theorem foldl_bsf_snd_le (vocab : List (Str × Nat)) (token : Str) :
    ∀ (js : List Nat) (acc : Option (Str × Str) × Nat),
      acc.2 ≤ (js.foldl (bsfStep vocab token) acc).2
  | [], _ => le_refl _
  | j :: js, acc =>
    le_trans (bsfStep_snd_le vocab token acc j)
      (foldl_bsf_snd_le vocab token js (bsfStep vocab token acc j))

theorem foldl_bsf_ge_score (vocab : List (Str × Nat)) (token : Str) :
    ∀ (js : List Nat) (acc : Option (Str × Str) × Nat) (j : Nat), j ∈ js →
      min (aget vocab (token.take j)) (aget vocab (token.drop j)) ≤
        (js.foldl (bsfStep vocab token) acc).2
  | [], _, _, h => absurd h (List.not_mem_nil _)
  | i :: js, acc, j, h => by
    rcases List.mem_cons.mp h with rfl | hmem
    · refine le_trans ?_ (foldl_bsf_snd_le vocab token js _)
      by_cases hpos : 0 < aget vocab (token.take j) ∧
          0 < aget vocab (token.drop j)
      · simp only [bsfStep]
        by_cases hup : acc.2 <
            min (aget vocab (token.take j)) (aget vocab (token.drop j))
        · rw [if_pos ⟨hpos.1, hpos.2, hup⟩]
        · rw [if_neg (by tauto)]
          omega
      · have : min (aget vocab (token.take j)) (aget vocab (token.drop j)) = 0 := by
          omega
        omega
    · exact foldl_bsf_ge_score vocab token js _ j hmem

theorem foldl_bsf_shape (vocab : List (Str × Nat)) (token : Str) :
    ∀ (js : List Nat), (∀ j ∈ js, 2 ≤ j ∧ j < token.length - 1) →
    ∀ (acc : Option (Str × Str) × Nat),
      (acc = (none, 0) ∨ ∃ i, 2 ≤ i ∧ i < token.length - 1 ∧
        acc = (some (token.take i, token.drop i),
          min (aget vocab (token.take i)) (aget vocab (token.drop i)))) →
      (js.foldl (bsfStep vocab token) acc = (none, 0) ∨
        ∃ i, 2 ≤ i ∧ i < token.length - 1 ∧
          js.foldl (bsfStep vocab token) acc =
            (some (token.take i, token.drop i),
              min (aget vocab (token.take i)) (aget vocab (token.drop i))))
  | [], _, _, hacc => hacc
  | j :: js, hjs, acc, hacc => by
    refine foldl_bsf_shape vocab token js (fun i hi => hjs i (List.mem_cons_of_mem j hi)) _ ?_
    simp only [bsfStep]
    split
    · right
      exact ⟨j, (hjs j (List.mem_cons_self j js)).1,
        (hjs j (List.mem_cons_self j js)).2, rfl⟩
    · exact hacc

theorem bestSplitFold_ge (vocab : List (Str × Nat)) (token : Str) (j : Nat)
    (h2 : 2 ≤ j) (hu : j < token.length - 1) :
    min (aget vocab (token.take j)) (aget vocab (token.drop j)) ≤
      (bestSplitFold vocab token).2 := by
  apply foldl_bsf_ge_score
  rw [List.mem_range'_1]
  omega

theorem bestSplitFold_shape (vocab : List (Str × Nat)) (token : Str) :
    bestSplitFold vocab token = (none, 0) ∨
      ∃ i, 2 ≤ i ∧ i < token.length - 1 ∧
        bestSplitFold vocab token = (some (token.take i, token.drop i),
          min (aget vocab (token.take i)) (aget vocab (token.drop i))) := by
  apply foldl_bsf_shape
  · intro j hj
    rw [List.mem_range'_1] at hj
    omega
  · exact Or.inl rfl

/-- Claim C2: `normalize_with_vocabulary` scans tokens left to right; the
current and next token are merged into their concatenation exactly when the
concatenation's frequency exceeds twice the smaller of the two tokens'
frequencies (both tokens consumed); otherwise a token present in the
vocabulary is kept, and a token absent from the vocabulary is replaced by the
two parts of an internal split point in `[2, len-1)` that maximizes the
minimum of the parts' frequencies, provided that maximum exceeds 10, and kept
unchanged otherwise. -/
theorem c2_greedy_vocab_pass (vocab : List (Str × Nat)) :
    (∀ txt, normalizeWithVocabulary vocab txt =
      joinSpace (nwvAux vocab (splitWs txt))) ∧
    (∀ t u rest,
      (min (aget vocab t) (aget vocab u) * 2 < aget vocab (t ++ u) →
        nwvAux vocab (t :: u :: rest) = (t ++ u) :: nwvAux vocab rest) ∧
      (¬ min (aget vocab t) (aget vocab u) * 2 < aget vocab (t ++ u) →
        nwvAux vocab (t :: u :: rest) =
          tokenStep vocab t ++ nwvAux vocab (u :: rest))) ∧
    (∀ t, nwvAux vocab [t] = tokenStep vocab t) ∧
    (∀ t, amem vocab t → tokenStep vocab t = [t]) ∧
    (∀ t, ¬ amem vocab t →
      (10 < (bestSplitFold vocab t).2 →
        ∃ i, 2 ≤ i ∧ i < t.length - 1 ∧
          tokenStep vocab t = [t.take i, t.drop i] ∧
          min (aget vocab (t.take i)) (aget vocab (t.drop i)) =
            (bestSplitFold vocab t).2 ∧
          ∀ j, 2 ≤ j → j < t.length - 1 →
            min (aget vocab (t.take j)) (aget vocab (t.drop j)) ≤
              (bestSplitFold vocab t).2) ∧
      ((bestSplitFold vocab t).2 ≤ 10 → tokenStep vocab t = [t])) := by
  refine ⟨fun _ => rfl, ?_, fun _ => rfl, ?_, ?_⟩
  · intro t u rest
    constructor
    · intro h
      rw [nwvAux, if_pos h]
    · intro h
      rw [nwvAux, if_neg h]
  · intro t ht
    have ht' : (alookup vocab t).isSome = true := ht
    unfold tokenStep
    rw [if_pos ht']
  · intro t ht
    have hmem : ¬ (alookup vocab t).isSome = true := fun h => ht h
    constructor
    · intro hsc
      rcases bestSplitFold_shape vocab t with hsh | ⟨i, hi2, hiu, hsh⟩
      · rw [hsh] at hsc
        exact absurd hsc (by decide)
      · have hsc' : 10 < min (aget vocab (t.take i)) (aget vocab (t.drop i)) := by
          rw [hsh] at hsc
          simpa using hsc
        refine ⟨i, hi2, hiu, ?_, ?_, ?_⟩
        · unfold tokenStep
          rw [if_neg hmem, hsh]
          simp [hsc']
        · rw [hsh]
        · intro j hj2 hju
          exact bestSplitFold_ge vocab t j hj2 hju
    · intro hsc
      unfold tokenStep
      rw [if_neg hmem]
      rcases bestSplitFold_shape vocab t with hsh | ⟨i, _, _, hsh⟩
      · rw [hsh]
      · have hle : min (aget vocab (t.take i)) (aget vocab (t.drop i)) ≤ 10 := by
          rw [hsh] at hsc
          simpa using hsc
        rw [hsh]
        simp [Nat.not_lt.mpr hle]

/-- Witness for C2: with `"ab"` at frequency 5 and `"a"`, `"b"` at frequency 1,
the merge branch fires on the token pair `["a", "b"]`. -/
theorem c2_greedy_vocab_pass_witness :
    nwvAux [(strOf "ab", 5), (strOf "a", 1), (strOf "b", 1)]
      [strOf "a", strOf "b"] =
      (strOf "a" ++ strOf "b") ::
        nwvAux [(strOf "ab", 5), (strOf "a", 1), (strOf "b", 1)] [] :=
  ((c2_greedy_vocab_pass [(strOf "ab", 5), (strOf "a", 1), (strOf "b", 1)]).2.1
    (strOf "a") (strOf "b") []).1 (by decide)

/-! ## NFC stability lemmas

A sequence is its own NFC form whenever no two adjacent characters form a
primary composite (`NoBad`); on the modelled fragment this is also exactly what
the composition pass produces. -/

/-- No two adjacent characters compose. -/
def NoBad (l : Str) : Prop :=
  List.Chain' (fun a b => composeCh a b = none) l

theorem composeCh_second_ne (c x : Char) (hx : x ≠ '́') :
    composeCh c x = none := by
  unfold composeCh
  rw [if_neg hx]

theorem composeCh_first_ne (c x : Char) (hc1 : c ≠ 'e') (hc2 : c ≠ 'a') :
    composeCh c x = none := by
  unfold composeCh
  split_ifs <;> simp_all

theorem composeCh_some {c x y : Char} (h : composeCh c x = some y) :
    (c = 'e' ∧ x = '́' ∧ y = 'é') ∨ (c = 'a' ∧ x = '́' ∧ y = 'á') := by
  unfold composeCh at h
  split at h
  · next hx =>
    split at h
    · next hc => exact Or.inl ⟨hc, hx, (Option.some.inj h).symm⟩
    · next hc =>
      split at h
      · next hc' => exact Or.inr ⟨hc', hx, (Option.some.inj h).symm⟩
      · exact absurd h (by simp)
  · exact absurd h (by simp)

theorem nfcGo_ne_nil (c : Char) : ∀ (xs : Str), nfcGo c xs ≠ []
  | [] => by simp [nfcGo]
  | x :: xs => by
    rw [nfcGo]
    match h : composeCh c x with
    | some y => exact nfcGo_ne_nil y xs
    | none => simp

theorem head_nfcGo : ∀ (xs : Str) (c h : Char),
    (nfcGo c xs).head? = some h → h = c ∨ h = 'é' ∨ h = 'á'
  | [], c, h => by
    rw [nfcGo]
    intro hh
    exact Or.inl (Option.some.inj hh).symm
  | x :: xs, c, h => by
    rw [nfcGo]
    match hcx : composeCh c x with
    | some y =>
      intro hh
      rcases composeCh_some hcx with ⟨_, _, rfl⟩ | ⟨_, _, rfl⟩
      · rcases head_nfcGo xs 'é' h hh with rfl | hh' <;> simp_all
      · rcases head_nfcGo xs 'á' h hh with rfl | hh' <;> simp_all
    | none =>
      intro hh
      exact Or.inl (Option.some.inj hh).symm

theorem noBad_nfcGo : ∀ (xs : Str) (c : Char), NoBad (nfcGo c xs)
  | [], c => by simp [nfcGo, NoBad]
  | x :: xs, c => by
    rw [nfcGo]
    match hcx : composeCh c x with
    | some y => exact noBad_nfcGo xs y
    | none =>
      rw [NoBad, List.chain'_cons']
      refine ⟨?_, noBad_nfcGo xs x⟩
      intro h hh
      rcases head_nfcGo xs x h hh with rfl | rfl | rfl
      · exact hcx
      · exact composeCh_second_ne c 'é' (by decide)
      · exact composeCh_second_ne c 'á' (by decide)

theorem noBad_nfcL (l : Str) : NoBad (nfcL l) := by
  unfold nfcL nfcRun
  match nfcDecomp l with
  | [] => simp [NoBad]
  | c :: cs => exact noBad_nfcGo cs c

/-- Heads of decomposed sequences: either a first decomposition character or
the head of the original sequence. -/
theorem decompHead : ∀ (ds : Str) (h : Char),
    (nfcDecomp ds).head? = some h → h = 'e' ∨ h = 'a' ∨ ds.head? = some h := by
  intro ds h hh
  match ds with
  | [] => simp [nfcDecomp] at hh
  | d :: ds' =>
    rw [nfcDecomp, List.flatMap_cons] at hh
    by_cases hd1 : d = 'é'
    · subst hd1
      rw [show decompCh 'é' = ['e', '́'] from rfl] at hh
      simp at hh
      exact Or.inl hh.symm
    · by_cases hd2 : d = 'á'
      · subst hd2
        rw [show decompCh 'á' = ['a', '́'] from rfl] at hh
        simp at hh
        exact Or.inr (Or.inl hh.symm)
      · rw [show decompCh d = [d] by unfold decompCh; rw [if_neg hd1, if_neg hd2]]
          at hh
        simp at hh
        exact Or.inr (Or.inr (by simp [hh]))

theorem compat_lift (X : Char) (ds : Str)
    (h1 : ∀ d', ds.head? = some d' → composeCh X d' = none) :
    ∀ h, (nfcDecomp ds).head? = some h → composeCh X h = none := by
  intro h hh
  rcases decompHead ds h hh with rfl | rfl | hds
  · exact composeCh_second_ne X 'e' (by decide)
  · exact composeCh_second_ne X 'a' (by decide)
  · exact h1 h hds

theorem nfcGo_decomp : ∀ (cs : Str), NoBad cs → ∀ (c : Char),
    (∀ h, (nfcDecomp cs).head? = some h → composeCh c h = none) →
    nfcGo c (nfcDecomp cs) = c :: cs
  | [], _, c, _ => by simp [nfcDecomp, nfcGo]
  | d :: ds, hnb, c, hc => by
    obtain ⟨hd, hnb'⟩ := List.chain'_cons'.mp hnb
    have hd' : ∀ x, ds.head? = some x → composeCh d x = none :=
      fun x hx => hd x (Option.mem_def.mpr hx)
    by_cases hd1 : d = 'é'
    · subst hd1
      have hdec : nfcDecomp ('é' :: ds) = 'e' :: '́' :: nfcDecomp ds := by
        rw [nfcDecomp, List.flatMap_cons]; rfl
      have h1 : composeCh c 'e' = none := hc 'e' (by rw [hdec]; rfl)
      rw [hdec]
      simp only [nfcGo, h1, show composeCh 'e' '́' = some 'é' from by decide]
      rw [nfcGo_decomp ds hnb' 'é' (compat_lift 'é' ds hd')]
    · by_cases hd2 : d = 'á'
      · subst hd2
        have hdec : nfcDecomp ('á' :: ds) = 'a' :: '́' :: nfcDecomp ds := by
          rw [nfcDecomp, List.flatMap_cons]; rfl
        have h1 : composeCh c 'a' = none := hc 'a' (by rw [hdec]; rfl)
        rw [hdec]
        simp only [nfcGo, h1, show composeCh 'a' '́' = some 'á' from by decide]
        rw [nfcGo_decomp ds hnb' 'á' (compat_lift 'á' ds hd')]
      · have hplain : decompCh d = [d] := by
          unfold decompCh; rw [if_neg hd1, if_neg hd2]
        have hdec : nfcDecomp (d :: ds) = d :: nfcDecomp ds := by
          rw [nfcDecomp, List.flatMap_cons, hplain]; rfl
        have h1 : composeCh c d = none := hc d (by rw [hdec]; rfl)
        rw [hdec]
        simp only [nfcGo, h1]
        rw [nfcGo_decomp ds hnb' d (compat_lift d ds hd')]

/-- A sequence with no adjacent composable pair is its own NFC form. -/
theorem isNFC_of_noBad : ∀ (l : Str), NoBad l → isNFC l
  | [], _ => rfl
  | c :: cs, hnb => by
    obtain ⟨hd, hnb'⟩ := List.chain'_cons'.mp hnb
    have hd' : ∀ x, cs.head? = some x → composeCh c x = none :=
      fun x hx => hd x (Option.mem_def.mpr hx)
    show nfcL (c :: cs) = c :: cs
    unfold nfcL
    by_cases hc1 : c = 'é'
    · subst hc1
      have hdec : nfcDecomp ('é' :: cs) = 'e' :: '́' :: nfcDecomp cs := by
        rw [nfcDecomp, List.flatMap_cons]; rfl
      rw [hdec, nfcRun]
      simp only [nfcGo, show composeCh 'e' '́' = some 'é' from by decide]
      exact nfcGo_decomp cs hnb' 'é' (compat_lift 'é' cs hd')
    · by_cases hc2 : c = 'á'
      · subst hc2
        have hdec : nfcDecomp ('á' :: cs) = 'a' :: '́' :: nfcDecomp cs := by
          rw [nfcDecomp, List.flatMap_cons]; rfl
        rw [hdec, nfcRun]
        simp only [nfcGo, show composeCh 'a' '́' = some 'á' from by decide]
        exact nfcGo_decomp cs hnb' 'á' (compat_lift 'á' cs hd')
      · have hplain : decompCh c = [c] := by
          unfold decompCh; rw [if_neg hc1, if_neg hc2]
        have hdec : nfcDecomp (c :: cs) = c :: nfcDecomp cs := by
          rw [nfcDecomp, List.flatMap_cons, hplain]; rfl
        rw [hdec, nfcRun]
        exact nfcGo_decomp cs hnb' c (compat_lift c cs hd')

/-- NFC is idempotent on the modelled fragment. -/
theorem nfcL_idem (l : Str) : nfcL (nfcL l) = nfcL l :=
  isNFC_of_noBad _ (noBad_nfcL l)

theorem noBad_map (f : Char → Char)
    (hf : ∀ a b, composeCh a b = none → composeCh (f a) (f b) = none)
    (l : Str) (h : NoBad l) : NoBad (l.map f) := by
  rw [NoBad, List.chain'_map]
  exact List.Chain'.imp (fun a b hab => hf a b hab) h

theorem pcCh_cases (c : Char) : pcCh c = c ∨ pcCh c = '-' := by
  unfold pcCh punctPairs
  simp only [alookup]
  split_ifs <;> simp

theorem nmCh_cases (c : Char) : nmCh c = c ∨
    (nmCh c = '0' ∨ nmCh c = '1' ∨ nmCh c = '2' ∨ nmCh c = '3' ∨
     nmCh c = '4' ∨ nmCh c = '5' ∨ nmCh c = '6' ∨ nmCh c = '7' ∨
     nmCh c = '8' ∨ nmCh c = '9') := by
  unfold nmCh numPairs
  simp only [alookup]
  split_ifs <;> simp

theorem composeCh_map_pc (a b : Char) (h : composeCh a b = none) :
    composeCh (pcCh a) (pcCh b) = none := by
  by_cases hn : composeCh (pcCh a) (pcCh b) = none
  · exact hn
  · exfalso
    obtain ⟨y, hy⟩ := Option.ne_none_iff_exists'.mp hn
    have hb' : b = '́' := by
      rcases composeCh_some hy with ⟨_, hb, _⟩ | ⟨_, hb, _⟩ <;>
        rcases pcCh_cases b with h2 | h2 <;>
          first
            | (rw [h2] at hb; exact hb)
            | (rw [h2] at hb; exact absurd hb (by decide))
    have ha' : a = 'e' ∨ a = 'a' := by
      rcases composeCh_some hy with ⟨ha, _, _⟩ | ⟨ha, _, _⟩ <;>
        rcases pcCh_cases a with h1 | h1 <;>
          first
            | (rw [h1] at ha; exact Or.inl ha)
            | (rw [h1] at ha; exact Or.inr ha)
            | (rw [h1] at ha; exact absurd ha (by decide))
    subst hb'
    rcases ha' with rfl | rfl <;> exact absurd h (by decide)

theorem composeCh_map_nm (a b : Char) (h : composeCh a b = none) :
    composeCh (nmCh a) (nmCh b) = none := by
  by_cases hn : composeCh (nmCh a) (nmCh b) = none
  · exact hn
  · exfalso
    obtain ⟨y, hy⟩ := Option.ne_none_iff_exists'.mp hn
    have hb' : b = '́' := by
      rcases composeCh_some hy with ⟨_, hb, _⟩ | ⟨_, hb, _⟩ <;>
        rcases nmCh_cases b with h2 | h2 <;>
          first
            | (rw [h2] at hb; exact hb)
            | (rcases h2 with h2|h2|h2|h2|h2|h2|h2|h2|h2|h2 <;>
                (rw [h2] at hb; exact absurd hb (by decide)))
    have ha' : a = 'e' ∨ a = 'a' := by
      rcases composeCh_some hy with ⟨ha, _, _⟩ | ⟨ha, _, _⟩ <;>
        rcases nmCh_cases a with h1 | h1
      · exact Or.inl (by rw [h1] at ha; exact ha)
      · exact absurd ha (by
          rcases h1 with h1|h1|h1|h1|h1|h1|h1|h1|h1|h1 <;>
            (rw [h1]; decide))
      · exact Or.inr (by rw [h1] at ha; exact ha)
      · exact absurd ha (by
          rcases h1 with h1|h1|h1|h1|h1|h1|h1|h1|h1|h1 <;>
            (rw [h1]; decide))
    subst hb'
    rcases ha' with rfl | rfl <;> exact absurd h (by decide)

theorem collapse_head : ∀ (cs : Str) (h : Char),
    (collapseWs false cs).head? = some h → h = ' ' ∨ cs.head? = some h := by
  intro cs h
  match cs with
  | [] => simp [collapseWs]
  | d :: ds =>
    rw [collapseWs]
    by_cases hd : isSpaceCh d
    · simp only [hd, if_true, if_false, Bool.false_eq_true]
      intro hh
      exact Or.inl (Option.some.inj hh).symm
    · simp only [hd, Bool.false_eq_true, if_false]
      intro hh
      exact Or.inr (by rw [List.head?_cons, ← Option.some.inj hh])

theorem noBad_collapse : ∀ (l : Str) (b : Bool), NoBad l → NoBad (collapseWs b l)
  | [], _, _ => by simp [collapseWs, NoBad]
  | c :: cs, b, hnb => by
    obtain ⟨hd, hnb'⟩ := List.chain'_cons'.mp hnb
    rw [collapseWs]
    by_cases hc : isSpaceCh c
    · simp only [hc, if_true]
      cases b with
      | true =>
        simp only [if_true]
        exact noBad_collapse cs true hnb'
      | false =>
        simp only [Bool.false_eq_true, if_false]
        rw [NoBad, List.chain'_cons']
        refine ⟨?_, noBad_collapse cs true hnb'⟩
        intro h _
        exact composeCh_first_ne ' ' h (by decide) (by decide)
    · simp only [hc, Bool.false_eq_true, if_false]
      rw [NoBad, List.chain'_cons']
      refine ⟨?_, noBad_collapse cs false hnb'⟩
      intro h hh
      rcases collapse_head cs h (Option.mem_def.mp hh) with rfl | hcs
      · exact composeCh_second_ne c ' ' (by decide)
      · exact hd h (Option.mem_def.mpr hcs)

theorem chain'_dropWhile {α : Type} {R : α → α → Prop} (p : α → Bool) :
    ∀ (l : List α), List.Chain' R l → List.Chain' R (l.dropWhile p)
  | [], h => h
  | c :: cs, h => by
    rw [List.dropWhile_cons]
    by_cases hc : p c
    · simp only [hc, if_true]
      exact chain'_dropWhile p cs (List.Chain'.tail h)
    · simp only [hc, Bool.false_eq_true, if_false]
      exact h

theorem noBad_trimL (l : Str) (h : NoBad l) : NoBad (trimL l) :=
  chain'_dropWhile _ l h

theorem noBad_trimR (l : Str) (h : NoBad l) : NoBad (trimR l) := by
  unfold trimR
  rw [NoBad, List.chain'_reverse]
  apply chain'_dropWhile
  rw [← List.chain'_reverse, List.reverse_reverse]
  exact h

theorem noBad_normalizeWhitespace (l : Str) (h : NoBad l) :
    NoBad (normalizeWhitespace l) :=
  noBad_trimL _ (noBad_trimR _ (noBad_collapse l false h))

/-- With the rule and vocabulary stages disabled, the pipeline output has no
adjacent composable pair, hence is NFC. -/
theorem isNFC_normDisabled (vocab : List (Str × Nat)) (rules : List (Str × Str))
    (x : Str) : isNFC (normalizeStr vocab rules false false x) := by
  unfold normalizeStr
  by_cases hx : x.isEmpty
  · rw [if_pos hx]
    rw [List.isEmpty_iff.mp hx]
    rfl
  · rw [if_neg hx]
    simp only [Bool.false_and, Bool.false_eq_true, if_false]
    apply isNFC_of_noBad
    apply noBad_normalizeWhitespace
    exact noBad_map nmCh composeCh_map_nm _
      (noBad_map pcCh composeCh_map_pc _ (noBad_nfcL x))

/-! ### Claim C6: NFC-ness of `normalize` output -/

/-- Counterexample to C6 as stated: with the loaded rule `"a" → "e" + U+0301`
(rule substitution runs after the Unicode stage), `normalize("a")` returns the
decomposed sequence `e U+0301`, which is not NFC (its NFC form is `é`). -/
theorem c6_nfc_cex :
    ¬ isNFC (normalizeStr [] [(strOf "a", ['e', '́'])] true true (strOf "a")) :=
  by decide

/-- Claim C6 (amended): the output of `normalize` is NFC-normalized for every
input when the rule-substitution and vocabulary stages are disabled
(`use_rules=False`, `use_vocab=False`); with them enabled, a rule target or a
vocabulary merge can leave non-NFC text, since those stages run after the
Unicode-normalization stage. -/
theorem c6_nfc_amended (vocab : List (Str × Nat)) (rules : List (Str × Str))
    (x : Str) : isNFC (normalizeStr vocab rules false false x) :=
  isNFC_normDisabled vocab rules x

/-! ### Whitespace-normal form: stability of the disabled pipeline -/

theorem map_fix {f : Char → Char} {l : Str} (h : ∀ c ∈ l, f c = c) :
    l.map f = l := by
  induction l with
  | nil => rfl
  | cons c cs ih =>
    rw [List.map_cons, h c (List.mem_cons_self c cs),
      ih fun d hd => h d (List.mem_cons_of_mem c hd)]

theorem pcCh_idem (c : Char) : pcCh (pcCh c) = pcCh c := by
  rcases pcCh_cases c with h | h
  · rw [h]
    exact h
  · rw [h]
    decide

theorem nmCh_idem (c : Char) : nmCh (nmCh c) = nmCh c := by
  rcases nmCh_cases c with h | h
  · rw [h]
    exact h
  · rcases h with h|h|h|h|h|h|h|h|h|h <;> rw [h] <;> decide

theorem pcCh_nmCh_pcCh (c : Char) : pcCh (nmCh (pcCh c)) = nmCh (pcCh c) := by
  rcases nmCh_cases (pcCh c) with h | h
  · rw [h]
    exact pcCh_idem c
  · rcases h with h|h|h|h|h|h|h|h|h|h <;> rw [h] <;> decide

theorem mem_collapse : ∀ (l : Str) (b : Bool) (c : Char),
    c ∈ collapseWs b l → c = ' ' ∨ (c ∈ l ∧ isSpaceCh c = false)
  | [], _, _, h => by simp [collapseWs] at h
  | d :: ds, b, c, h => by
    rw [collapseWs] at h
    by_cases hd : isSpaceCh d
    · simp only [hd, if_true] at h
      cases b with
      | true =>
        simp only [if_true] at h
        rcases mem_collapse ds true c h with h' | ⟨h1, h2⟩
        · exact Or.inl h'
        · exact Or.inr ⟨List.mem_cons_of_mem d h1, h2⟩
      | false =>
        simp only [Bool.false_eq_true, if_false, List.mem_cons] at h
        rcases h with rfl | h
        · exact Or.inl rfl
        · rcases mem_collapse ds true c h with h' | ⟨h1, h2⟩
          · exact Or.inl h'
          · exact Or.inr ⟨List.mem_cons_of_mem d h1, h2⟩
    · simp only [hd, Bool.false_eq_true, if_false, List.mem_cons] at h
      rcases h with rfl | h
      · exact Or.inr ⟨List.mem_cons_self c ds, by simpa using hd⟩
      · rcases mem_collapse ds false c h with h' | ⟨h1, h2⟩
        · exact Or.inl h'
        · exact Or.inr ⟨List.mem_cons_of_mem d h1, h2⟩

theorem mem_trimL {l : Str} {c : Char} (h : c ∈ trimL l) : c ∈ l :=
  (List.dropWhile_sublist _).subset h

theorem mem_trimR {l : Str} {c : Char} (h : c ∈ trimR l) : c ∈ l := by
  unfold trimR at h
  rw [List.mem_reverse] at h
  have := (List.dropWhile_sublist (fun c => isSpaceCh c)).subset h
  rwa [List.mem_reverse] at this

theorem mem_normalizeWhitespace {l : Str} {c : Char}
    (h : c ∈ normalizeWhitespace l) :
    c = ' ' ∨ (c ∈ l ∧ isSpaceCh c = false) :=
  mem_collapse l false c (mem_trimR (mem_trimL h))

theorem head_collapse_true : ∀ (cs : Str) (h : Char),
    (collapseWs true cs).head? = some h → isSpaceCh h = false
  | [], h => by simp [collapseWs]
  | d :: ds, h => by
    rw [collapseWs]
    by_cases hd : isSpaceCh d
    · simp only [hd, if_true]
      exact head_collapse_true ds h
    · simp only [hd, Bool.false_eq_true, if_false, List.head?_cons]
      intro hh
      rw [← Option.some.inj hh]
      simpa using hd

/-- No two adjacent whitespace characters survive `re.sub(r'\s+', ' ')`. -/
theorem spaceChain_collapse : ∀ (l : Str) (b : Bool),
    List.Chain' (fun a c => ¬(isSpaceCh a = true ∧ isSpaceCh c = true))
      (collapseWs b l)
  | [], _ => by simp [collapseWs]
  | d :: ds, b => by
    rw [collapseWs]
    by_cases hd : isSpaceCh d
    · simp only [hd, if_true]
      cases b with
      | true => exact spaceChain_collapse ds true
      | false =>
        simp only [Bool.false_eq_true, if_false]
        rw [List.chain'_cons']
        refine ⟨?_, spaceChain_collapse ds true⟩
        intro h hh
        rw [head_collapse_true ds h (Option.mem_def.mp hh)]
        simp
    · simp only [hd, Bool.false_eq_true, if_false]
      rw [List.chain'_cons']
      refine ⟨?_, spaceChain_collapse ds false⟩
      intro h _
      simp only [hd]
      simp

theorem head_dropWhileNot {p : Char → Bool} : ∀ (l : Str) (h : Char),
    (l.dropWhile p).head? = some h → p h = false
  | [], h => by simp [List.dropWhile]
  | c :: cs, h => by
    rw [List.dropWhile_cons]
    by_cases hc : p c
    · simp only [hc, if_true]
      exact head_dropWhileNot cs h
    · simp only [hc, Bool.false_eq_true, if_false, List.head?_cons]
      intro hh
      rw [← Option.some.inj hh]
      simpa using hc

theorem getLast?_dropWhile {p : Char → Bool} : ∀ (l : Str),
    l.dropWhile p ≠ [] → (l.dropWhile p).getLast? = l.getLast?
  | [], h => absurd rfl h
  | c :: cs, h => by
    rw [List.dropWhile_cons] at h ⊢
    by_cases hc : p c
    · simp only [hc, if_true] at h ⊢
      have hcs : cs ≠ [] := by
        intro he
        rw [he] at h
        exact h rfl
      rw [getLast?_dropWhile cs h]
      match cs, hcs with
      | d :: ds, _ => rw [List.getLast?_cons_cons]
    · simp only [hc, Bool.false_eq_true, if_false] at h ⊢

theorem dropWhile_head_stable {p : Char → Bool} {l : Str}
    (h : ∀ x, l.head? = some x → p x = false) : l.dropWhile p = l := by
  match l with
  | [] => rfl
  | c :: cs =>
    rw [List.dropWhile_cons, h c rfl]
    simp

theorem trimR_stable {l : Str}
    (h : ∀ x, l.getLast? = some x → isSpaceCh x = false) : trimR l = l := by
  unfold trimR
  rw [dropWhile_head_stable, List.reverse_reverse]
  intro x hx
  rw [List.head?_reverse] at hx
  exact h x hx

/-- A list in whitespace-normal form is a fixed point of `collapseWs false`. -/
theorem collapse_stable : ∀ (l : Str),
    (∀ c ∈ l, isSpaceCh c = true → c = ' ') →
    List.Chain' (fun a c => ¬(isSpaceCh a = true ∧ isSpaceCh c = true)) l →
    (collapseWs false l = l ∧
      ((∀ h, l.head? = some h → isSpaceCh h = false) → collapseWs true l = l))
  | [], _, _ => ⟨rfl, fun _ => rfl⟩
  | c :: cs, hsp, hch => by
    obtain ⟨hd, hch'⟩ := List.chain'_cons'.mp hch
    have hsp' : ∀ x ∈ cs, isSpaceCh x = true → x = ' ' :=
      fun x hx => hsp x (List.mem_cons_of_mem c hx)
    have ih := collapse_stable cs hsp' hch'
    by_cases hc : isSpaceCh c
    · have hc' : c = ' ' := hsp c (List.mem_cons_self c cs) hc
      have hhead : ∀ h, cs.head? = some h → isSpaceCh h = false := by
        intro h hh
        have := hd h (Option.mem_def.mpr hh)
        by_cases hsh : isSpaceCh h
        · exact absurd ⟨hc, hsh⟩ this
        · simpa using hsh
      constructor
      · rw [collapseWs]
        simp only [hc, if_true, Bool.false_eq_true, if_false]
        rw [ih.2 hhead, hc']
      · intro hh
        exact absurd (hh c rfl) (by simp [hc])
    · constructor
      · rw [collapseWs]
        simp only [hc, Bool.false_eq_true, if_false]
        rw [ih.1]
      · intro _
        rw [collapseWs]
        simp only [hc, Bool.false_eq_true, if_false]
        rw [ih.1]

theorem chain'_trimR {R : Char → Char → Prop} (l : Str)
    (h : List.Chain' R l) : List.Chain' R (trimR l) := by
  unfold trimR
  rw [List.chain'_reverse]
  apply chain'_dropWhile
  rw [← List.chain'_reverse, List.reverse_reverse]
  exact h

theorem wsP1 (t : Str) :
    ∀ c ∈ normalizeWhitespace t, isSpaceCh c = true → c = ' ' := by
  intro c hc hsp
  rcases mem_normalizeWhitespace hc with rfl | ⟨_, hns⟩
  · rfl
  · rw [hns] at hsp
    exact absurd hsp (by simp)

theorem wsP2 (t : Str) :
    List.Chain' (fun a c => ¬(isSpaceCh a = true ∧ isSpaceCh c = true))
      (normalizeWhitespace t) := by
  unfold normalizeWhitespace pyStrip trimL
  apply chain'_dropWhile
  exact chain'_trimR _ (spaceChain_collapse t false)

theorem wsP3 (t : Str) : ∀ h, (normalizeWhitespace t).head? = some h →
    isSpaceCh h = false := by
  intro h hh
  unfold normalizeWhitespace pyStrip trimL at hh
  exact head_dropWhileNot _ h hh

theorem wsP4 (t : Str) : ∀ h, (normalizeWhitespace t).getLast? = some h →
    isSpaceCh h = false := by
  intro h hh
  have hne : normalizeWhitespace t ≠ [] := by
    intro he
    rw [he] at hh
    exact Option.noConfusion hh
  unfold normalizeWhitespace pyStrip trimL at hh hne
  rw [getLast?_dropWhile _ hne] at hh
  unfold trimR at hh
  rw [List.getLast?_reverse] at hh
  exact head_dropWhileNot _ h hh

/-- A string with single `' '` separators, no leading or trailing whitespace,
is a fixed point of `normalize_whitespace`. -/
theorem ws_fix {w : Str}
    (p1 : ∀ c ∈ w, isSpaceCh c = true → c = ' ')
    (p2 : List.Chain' (fun a c => ¬(isSpaceCh a = true ∧ isSpaceCh c = true)) w)
    (p3 : ∀ h, w.head? = some h → isSpaceCh h = false)
    (p4 : ∀ h, w.getLast? = some h → isSpaceCh h = false) :
    normalizeWhitespace w = w := by
  unfold normalizeWhitespace
  rw [(collapse_stable w p1 p2).1]
  unfold pyStrip
  rw [trimR_stable p4]
  unfold trimL
  exact dropWhile_head_stable p3

theorem ws_idem (t : Str) :
    normalizeWhitespace (normalizeWhitespace t) = normalizeWhitespace t :=
  ws_fix (wsP1 t) (wsP2 t) (wsP3 t) (wsP4 t)

theorem normDisabled_shape (vocab : List (Str × Nat))
    (rules : List (Str × Str)) (x : Str) (hx : ¬ x.isEmpty) :
    normalizeStr vocab rules false false x =
      normalizeWhitespace (normalizeNumerals (normalizePunctuation (nfcL x)))
    := by
  unfold normalizeStr
  rw [if_neg hx]
  simp only [Bool.false_and, Bool.false_eq_true, if_false]

theorem normDisabled_empty (vocab : List (Str × Nat))
    (rules : List (Str × Str)) (y : Str) (hy : y.isEmpty) :
    normalizeStr vocab rules false false y = y := by
  unfold normalizeStr
  rw [if_pos hy]

theorem normDisabled_pcFix (vocab : List (Str × Nat))
    (rules : List (Str × Str)) (x : Str) :
    normalizePunctuation (normalizeStr vocab rules false false x) =
      normalizeStr vocab rules false false x := by
  by_cases hx : x.isEmpty
  · rw [normDisabled_empty vocab rules x hx, List.isEmpty_iff.mp hx]
    rfl
  · rw [normDisabled_shape vocab rules x hx]
    unfold normalizePunctuation
    apply map_fix
    intro c hc
    rcases mem_normalizeWhitespace hc with rfl | ⟨hc', _⟩
    · decide
    · obtain ⟨d, hd, rfl⟩ := List.mem_map.mp hc'
      obtain ⟨e, _, rfl⟩ := List.mem_map.mp hd
      exact pcCh_nmCh_pcCh e

theorem normDisabled_nmFix (vocab : List (Str × Nat))
    (rules : List (Str × Str)) (x : Str) :
    normalizeNumerals (normalizeStr vocab rules false false x) =
      normalizeStr vocab rules false false x := by
  by_cases hx : x.isEmpty
  · rw [normDisabled_empty vocab rules x hx, List.isEmpty_iff.mp hx]
    rfl
  · rw [normDisabled_shape vocab rules x hx]
    unfold normalizeNumerals
    apply map_fix
    intro c hc
    rcases mem_normalizeWhitespace hc with rfl | ⟨hc', _⟩
    · decide
    · obtain ⟨d, _, rfl⟩ := List.mem_map.mp hc'
      exact nmCh_idem d

theorem normDisabled_wsFix (vocab : List (Str × Nat))
    (rules : List (Str × Str)) (x : Str) :
    normalizeWhitespace (normalizeStr vocab rules false false x) =
      normalizeStr vocab rules false false x := by
  by_cases hx : x.isEmpty
  · rw [normDisabled_empty vocab rules x hx, List.isEmpty_iff.mp hx]
    rfl
  · rw [normDisabled_shape vocab rules x hx]
    exact ws_idem _

/-! ### Claim C5: idempotence of `normalize` -/

/-- Counterexample to C5 as stated.  First conjunct: with vocabulary
`{"abc": 1000, "ab": 5, "c": 5, "a": 1, "b": 1}`, the first pass over
`"a b c"` merges `"a b"` into `"ab"`, and the second pass merges `"ab c"`
into `"abc"`, so `normalize(normalize(x)) ≠ normalize(x)` under fixed tables
and `use_vocab=True`.  Second conjunct: with the rule `"x" → "–"` (an en
dash), the second pass folds the dash introduced by the first pass, so the
rule stage also breaks idempotence. -/
theorem c5_idempotence_cex :
    normalizeStr [(strOf "abc", 1000), (strOf "ab", 5), (strOf "c", 5),
        (strOf "a", 1), (strOf "b", 1)] [] true true
      (normalizeStr [(strOf "abc", 1000), (strOf "ab", 5), (strOf "c", 5),
        (strOf "a", 1), (strOf "b", 1)] [] true true (strOf "a b c")) ≠
    normalizeStr [(strOf "abc", 1000), (strOf "ab", 5), (strOf "c", 5),
        (strOf "a", 1), (strOf "b", 1)] [] true true (strOf "a b c") ∧
    normalizeStr [] [(strOf "x", strOf "–")] true true
      (normalizeStr [] [(strOf "x", strOf "–")] true true (strOf "x")) ≠
    normalizeStr [] [(strOf "x", strOf "–")] true true (strOf "x") :=
  ⟨by decide, by decide⟩

/-- Claim C5 (amended): `normalize` is idempotent under fixed tables when the
vocabulary and rule stages are disabled (`use_vocab=False`,
`use_rules=False`); with `use_vocab=True` a first-pass merge can enable a
second-pass merge with the following token, and with `use_rules=True` a rule
target can feed the punctuation stage or another rule on the second pass, so
idempotence fails as stated. -/
theorem c5_idempotence_amended (vocab : List (Str × Nat))
    (rules : List (Str × Str)) (x : Str) :
    normalizeStr vocab rules false false
      (normalizeStr vocab rules false false x) =
    normalizeStr vocab rules false false x := by
  by_cases ho : (normalizeStr vocab rules false false x).isEmpty
  · exact normDisabled_empty vocab rules _ ho
  · rw [normDisabled_shape vocab rules _ ho]
    rw [show nfcL (normalizeStr vocab rules false false x) =
        normalizeStr vocab rules false false x from
      isNFC_normDisabled vocab rules x]
    rw [normDisabled_pcFix, normDisabled_nmFix, normDisabled_wsFix]

/-! ## Claim C7: the bounded Levenshtein DP

`levRec` recurses on the heads of both strings; the DP of
`levenshtein_distance` extends prefixes on the right, so the key lemma is the
end-extension recurrence `levRec_append`, proved by strong induction with the
nine-way min transposition `min3_transpose`. -/

theorem levRec_nil (t : Str) : levRec [] t = t.length := by simp [levRec]
theorem levRec_nil_right : ∀ (s : Str), levRec s [] = s.length
  | [] => levRec_nil []
  | a :: s => by simp [levRec]
theorem levRec_cons (a b : Char) (s t : Str) :
    levRec (a :: s) (b :: t) =
      if a = b then levRec s t
      else 1 + min (levRec s t) (min (levRec (a :: s) t) (levRec s (b :: t))) := by
  rw [levRec]
theorem levRec_comm : ∀ (s t : Str), levRec s t = levRec t s
  | [], t => by rw [levRec_nil, levRec_nil_right]
  | a :: s, [] => by rw [levRec_nil, levRec_nil_right]
  | a :: s, b :: t => by
    rw [levRec_cons, levRec_cons]
    by_cases hab : a = b
    · rw [if_pos hab, if_pos hab.symm, levRec_comm s t]
    · rw [if_neg hab, if_neg (Ne.symm hab),
        levRec_comm s t, levRec_comm (a :: s) t, levRec_comm s (b :: t)]
      omega
  termination_by s t => s.length + t.length
theorem levRec_length_lb : ∀ (s t : Str),
    t.length - s.length ≤ levRec s t ∧ s.length - t.length ≤ levRec s t
  | [], t => by rw [levRec_nil]; simp only [List.length_nil]; omega
  | a :: s, [] => by
    rw [levRec_nil_right]; simp only [List.length_nil, List.length_cons]; omega
  | a :: s, b :: t => by
    have h1 := levRec_length_lb s t
    have h2 := levRec_length_lb (a :: s) t
    have h3 := levRec_length_lb s (b :: t)
    rw [levRec_cons]
    by_cases hab : a = b
    · rw [if_pos hab]
      simp only [List.length_cons] at *
      omega
    · rw [if_neg hab]
      simp only [List.length_cons] at *
      omega
  termination_by s t => s.length + t.length
theorem min3_transpose (A B C D E F G H I : Nat) :
    min (1 + min A (min B C)) (min (1 + min D (min E F)) (1 + min G (min H I))) =
    min (1 + min A (min D G)) (min (1 + min B (min E H)) (1 + min C (min F I)))
    := by
  rw [min_add_add_left, min_add_add_left, min_add_add_left, min_add_add_left]
  congr 1
  refine le_antisymm ?_ ?_ <;>
    simp only [le_min_iff, min_le_iff, le_refl, true_or, or_true, true_and,
      and_true]

theorem levRec_append (x y : Char) : ∀ (xs ys : Str),
    levRec (xs ++ [x]) (ys ++ [y]) =
      if x = y then levRec xs ys
      else 1 + min (levRec xs ys)
        (min (levRec (xs ++ [x]) ys) (levRec xs (ys ++ [y])))
  | [], [] => by
    simp only [List.nil_append]
    rw [levRec_cons]
  | [], b :: ys => by
    have ih := levRec_append x y [] ys
    simp only [List.nil_append] at ih ⊢
    rw [List.cons_append, levRec_cons x b, levRec_cons x b [] ys, ih]
    simp only [levRec_nil, List.length_append, List.length_cons,
      List.length_nil]
    split_ifs <;> omega
  | a :: xs, [] => by
    have ih := levRec_append x y xs []
    simp only [List.nil_append] at ih ⊢
    rw [List.cons_append, levRec_cons a y, levRec_cons a y xs [], ih]
    simp only [levRec_nil, levRec_nil_right, List.length_append,
      List.length_cons, List.length_nil]
    split_ifs <;> omega
  | a :: xs, b :: ys => by
    have ih1 := levRec_append x y xs ys
    have ih2 := levRec_append x y (a :: xs) ys
    have ih3 := levRec_append x y xs (b :: ys)
    simp only [List.cons_append] at ih2 ih3 ⊢
    rw [levRec_cons a b (xs ++ [x]) (ys ++ [y]), levRec_cons a b xs ys,
      levRec_cons a b (xs ++ [x]) ys, levRec_cons a b xs (ys ++ [y]),
      ih1, ih2, ih3]
    by_cases hab : a = b <;> by_cases hxy : x = y
    · simp only [if_pos hab, if_pos hxy]
    · simp only [if_pos hab, if_neg hxy]
    · simp only [if_neg hab, if_pos hxy]
    · simp only [if_neg hab, if_neg hxy]
      congr 1
      exact min3_transpose _ _ _ _ _ _ _ _ _
  termination_by xs ys => xs.length + ys.length

/-- The reference value of a DP row: the distances `lev(x ++ prefix, p)` for
each prefix of `arest`; `distances` before processing a character of `s2`
equals `pdFrom [] s1 p` where `p` is the consumed prefix of `s2`. -/
def pdFrom (x arest p : Str) : List Nat :=
  match arest with
  | [] => [levRec x p]
  | q :: arest' => levRec x p :: pdFrom (x ++ [q]) arest' p

theorem pdFrom_ne_nil (x arest p : Str) : pdFrom x arest p ≠ [] := by
  cases arest <;> simp [pdFrom]

theorem pdFrom_head (x arest p : Str) :
    (pdFrom x arest p).head? = some (levRec x p) := by
  cases arest <;> simp [pdFrom]

theorem getLast?_cons_of_ne_nil {α : Type} (a : α) {l : List α} (h : l ≠ []) :
    (a :: l).getLast? = l.getLast? := by
  match l, h with
  | b :: bs, _ => rw [List.getLast?_cons_cons]

theorem pdFrom_getLast : ∀ (arest x p : Str),
    (pdFrom x arest p).getLast? = some (levRec (x ++ arest) p)
  | [], x, p => by simp [pdFrom]
  | q :: arest', x, p => by
    rw [pdFrom, getLast?_cons_of_ne_nil _ (pdFrom_ne_nil _ _ _),
      pdFrom_getLast arest' (x ++ [q]) p, ← List.append_cons]

theorem rowAux_pdFrom (c : Char) (p : Str) : ∀ (arest x : Str),
    rowAux (pdFrom x arest p) arest c (levRec x (p ++ [c])) =
      (pdFrom x arest (p ++ [c])).tail
  | [], x => by simp [pdFrom, rowAux]
  | q :: arest', x => by
    rw [show pdFrom x (q :: arest') p =
      levRec x p :: pdFrom (x ++ [q]) arest' p from rfl]
    cases arest' with
    | nil =>
      rw [show pdFrom (x ++ [q]) [] p = [levRec (x ++ [q]) p] from rfl]
      simp only [rowAux, ← levRec_append q c x p]
      rw [show pdFrom x [q] (p ++ [c]) =
        [levRec x (p ++ [c]), levRec (x ++ [q]) (p ++ [c])] from rfl]
      rfl
    | cons q' arest'' =>
      rw [show pdFrom (x ++ [q]) (q' :: arest'') p =
        levRec (x ++ [q]) p :: pdFrom (x ++ [q] ++ [q']) arest'' p from rfl]
      simp only [rowAux, ← levRec_append q c x p]
      rw [show levRec (x ++ [q]) p :: pdFrom (x ++ [q] ++ [q']) arest'' p =
        pdFrom (x ++ [q]) (q' :: arest'') p from rfl]
      rw [rowAux_pdFrom c p (q' :: arest'') (x ++ [q])]
      rw [show pdFrom x (q :: q' :: arest'') (p ++ [c]) =
        levRec x (p ++ [c]) :: pdFrom (x ++ [q]) (q' :: arest'') (p ++ [c])
        from rfl]
      rw [List.tail_cons]
      rw [show pdFrom (x ++ [q]) (q' :: arest'') (p ++ [c]) =
        levRec (x ++ [q]) (p ++ [c]) ::
          pdFrom (x ++ [q] ++ [q']) arest'' (p ++ [c]) from rfl]
      rw [List.tail_cons]
theorem minL_le_mem : ∀ (l : List Nat) (v : Nat), v ∈ l → minL l ≤ v
  | [], v, h => absurd h (List.not_mem_nil v)
  | [u], v, h => by
    rw [List.mem_singleton] at h
    subst h
    simp [minL]
  | u :: w :: rest, v, h => by
    rw [minL]
    rcases List.mem_cons.mp h with rfl | h'
    · exact min_le_left _ _
    · exact le_trans (min_le_right _ _) (minL_le_mem (w :: rest) v h')

theorem minL_cons_of_ne_nil (a : Nat) {l : List Nat} (h : l ≠ []) :
    minL (a :: l) = min a (minL l) := by
  match l, h with
  | b :: bs, _ => rw [minL]

theorem minL_mono_pd : ∀ (arest x p : Str) (c : Char),
    min (minL (pdFrom x arest p)) (levRec x (p ++ [c])) ≤
      minL (pdFrom x arest (p ++ [c]))
  | [], x, p, c => by
    simp only [pdFrom, minL]
    exact min_le_right _ _
  | q :: arest', x, p, c => by
    have ih := minL_mono_pd arest' (x ++ [q]) p c
    have hq := levRec_append q c x p
    have hM : minL (pdFrom (x ++ [q]) arest' p) ≤ levRec (x ++ [q]) p :=
      minL_le_mem _ _ (List.mem_of_mem_head?
        (Option.mem_def.mpr (pdFrom_head (x ++ [q]) arest' p)))
    rw [pdFrom, pdFrom, minL_cons_of_ne_nil _ (pdFrom_ne_nil _ _ _),
      minL_cons_of_ne_nil _ (pdFrom_ne_nil _ _ _)]
    by_cases hqc : q = c
    · rw [if_pos hqc] at hq
      omega
    · rw [if_neg hqc] at hq
      omega

theorem minL_pd_le_lev : ∀ (rest a p : Str),
    minL (pdFrom [] a p) ≤ levRec a (p ++ rest)
  | [], a, p => by
    rw [List.append_nil]
    have hmem : levRec ([] ++ a) p ∈ pdFrom [] a p := by
      obtain ⟨hne, heq⟩ := List.mem_getLast?_eq_getLast
        (Option.mem_def.mpr (pdFrom_getLast a [] p))
      rw [heq]
      exact List.getLast_mem hne
    rw [List.nil_append] at hmem
    exact minL_le_mem _ _ hmem
  | c :: rest', a, p => by
    have h1 : minL (pdFrom [] a p) ≤ levRec [] p :=
      minL_le_mem _ _ (List.mem_of_mem_head?
        (Option.mem_def.mpr (pdFrom_head [] a p)))
    have h2 := minL_mono_pd a [] p c
    have h3 := minL_pd_le_lev rest' a (p ++ [c])
    rw [List.append_cons]
    rw [levRec_nil] at h1 h2
    simp only [List.length_append, List.length_cons, List.length_nil] at h1 h2
    omega
theorem pdFrom_row_cons (a p : Str) (c : Char) :
    levRec [] (p ++ [c]) :: (pdFrom [] a (p ++ [c])).tail =
      pdFrom [] a (p ++ [c]) := by
  cases a <;> rfl

theorem newRow_eq_pdFrom (a p : Str) (c : Char) :
    (p.length + 1) :: rowAux (pdFrom [] a p) a c (p.length + 1) =
      pdFrom [] a (p ++ [c]) := by
  have hlen : p.length + 1 = levRec [] (p ++ [c]) := by
    rw [levRec_nil, List.length_append, List.length_cons, List.length_nil]
  rw [hlen, rowAux_pdFrom c p a [], pdFrom_row_cons]

theorem levLoop_exact (maxDist : Nat) (a : Str) : ∀ (rest p : Str),
    levRec a (p ++ rest) ≤ maxDist →
    levLoop maxDist a (pdFrom [] a p) rest p.length = levRec a (p ++ rest)
  | [], p, _ => by
    rw [levLoop, pdFrom_getLast a [] p, List.nil_append, List.append_nil]
    rfl
  | c :: rest', p, h => by
    rw [List.append_cons] at h
    simp only [levLoop]
    rw [newRow_eq_pdFrom a p c]
    have hmin := minL_pd_le_lev rest' a (p ++ [c])
    rw [if_neg (by omega)]
    rw [show p.length + 1 = (p ++ [c]).length by simp]
    rw [levLoop_exact maxDist a rest' (p ++ [c]) h]
    rw [← List.append_cons]

theorem levLoop_gt (maxDist : Nat) (a : Str) : ∀ (rest p : Str),
    maxDist < levRec a (p ++ rest) →
    maxDist < levLoop maxDist a (pdFrom [] a p) rest p.length
  | [], p, h => by
    rw [levLoop, pdFrom_getLast a [] p, List.nil_append]
    rw [List.append_nil] at h
    exact h
  | c :: rest', p, h => by
    rw [List.append_cons] at h
    simp only [levLoop]
    rw [newRow_eq_pdFrom a p c]
    by_cases hpr : maxDist < minL (pdFrom [] a (p ++ [c]))
    · rw [if_pos hpr]
      omega
    · rw [if_neg hpr]
      rw [show p.length + 1 = (p ++ [c]).length by simp]
      exact levLoop_gt maxDist a rest' (p ++ [c]) h

theorem pdFrom_nil_range : ∀ (arest x : Str),
    pdFrom x arest [] = List.range' x.length (arest.length + 1)
  | [], x => by
    simp [pdFrom, levRec_nil_right, List.range']
  | q :: arest', x => by
    rw [pdFrom, pdFrom_nil_range arest' (x ++ [q]), levRec_nil_right]
    simp only [List.length_append, List.length_cons, List.length_nil,
      List.range']

theorem range_eq_pdFrom (a : Str) :
    List.range (a.length + 1) = pdFrom [] a [] := by
  rw [pdFrom_nil_range a [], List.range_eq_range']
  rfl

/-- Claim C7 (amended): `levenshtein_distance(s1, s2, max_dist)` returns the
exact Levenshtein distance whenever that distance is at most `max_dist`, and a
value strictly greater than `max_dist` whenever the true distance exceeds the
cutoff — but that value is not always `max_dist + 1`: when every DP row keeps
an entry at most `max_dist`, the function falls through to `distances[-1]`,
which can exceed `max_dist + 1`. -/
theorem c7_bounded_distance (s1 s2 : Str) (maxDist : Nat) :
    (levRec s1 s2 ≤ maxDist → pyLev s1 s2 maxDist = levRec s1 s2) ∧
    (maxDist < levRec s1 s2 → maxDist < pyLev s1 s2 maxDist) := by
  unfold pyLev
  by_cases hbail : maxDist < max s1.length s2.length - min s1.length s2.length
  · rw [if_pos hbail]
    have hlb := levRec_length_lb s1 s2
    constructor
    · intro h
      omega
    · intro _
      omega
  · rw [if_neg hbail]
    by_cases hsw : s2.length < s1.length
    · simp only [if_pos hsw]
      have hc := levRec_comm s1 s2
      constructor
      · intro h
        rw [range_eq_pdFrom s2]
        have := levLoop_exact maxDist s2 s1 []
        rw [List.nil_append] at this
        rw [show (0 : Nat) = ([] : Str).length from rfl]
        rw [this (by omega)]
        omega
      · intro h
        rw [range_eq_pdFrom s2]
        have := levLoop_gt maxDist s2 s1 []
        rw [List.nil_append] at this
        rw [show (0 : Nat) = ([] : Str).length from rfl]
        exact this (by omega)
    · simp only [if_neg hsw]
      constructor
      · intro h
        rw [range_eq_pdFrom s1]
        have := levLoop_exact maxDist s1 s2 []
        rw [List.nil_append] at this
        rw [show (0 : Nat) = ([] : Str).length from rfl]
        exact this h
      · intro h
        rw [range_eq_pdFrom s1]
        have := levLoop_gt maxDist s1 s2 []
        rw [List.nil_append] at this
        rw [show (0 : Nat) = ([] : Str).length from rfl]
        exact this h

/-- Counterexample to the parenthetical of C7: for `s1 = "xycd"`,
`s2 = "abxy"`, `max_dist = 2`, the true distance is 4 > 2, yet the function
returns `distances[-1] = 4`, not `max_dist + 1 = 3` (no row minimum ever
exceeded the cutoff). -/
theorem c7_bounded_distance_cex :
    levRec (strOf "xycd") (strOf "abxy") = 4 ∧
    pyLev (strOf "xycd") (strOf "abxy") 2 = 4 ∧
    pyLev (strOf "xycd") (strOf "abxy") 2 ≠ 2 + 1 := by
  refine ⟨?_, by decide, by decide⟩
  have h : strOf "xycd" = ['x', 'y', 'c', 'd'] := rfl
  have h2 : strOf "abxy" = ['a', 'b', 'x', 'y'] := rfl
  rw [h, h2]
  simp +decide [levRec]

/-- Witness for C7 at concrete inputs: `"ab"` vs `"ba"` has distance 2, which
is returned exactly under cutoff 2 and exceeds cutoff 1. -/
theorem c7_bounded_distance_witness :
    pyLev (strOf "ab") (strOf "ba") 2 = levRec (strOf "ab") (strOf "ba") ∧
    1 < pyLev (strOf "ab") (strOf "ba") 1 := by
  have hv : levRec (strOf "ab") (strOf "ba") = 2 := by
    have h : strOf "ab" = ['a', 'b'] := rfl
    have h2 : strOf "ba" = ['b', 'a'] := rfl
    rw [h, h2]
    simp +decide [levRec]
  constructor
  · exact (c7_bounded_distance (strOf "ab") (strOf "ba") 2).1 (by rw [hv])
  · exact (c7_bounded_distance (strOf "ab") (strOf "ba") 1).2 (by rw [hv]; omega)
